import Mathlib

/-!
Verification of the message dispatcher and semantic-highlight engine of
`src/message_handler.cc` (ccls).  The C++ source is shallowly embedded:
pure computations become Lean functions, the exception-based control flow
of the dispatcher becomes an explicit outcome type, and the per-request
reply channel becomes a list of outgoing messages.
-/

namespace Ccls

/-! ## Dispatcher model (`MessageHandler::run`, `findOrFail`) -/

/-- Error codes consumed by `ReplyOnce::error` (subset of the LSP
enumeration that this file uses). -/
inductive ErrorCode where
  | invalidRequest
  | methodNotFound
  | invalidParams
  | internalError
deriving DecidableEq, Repr

/-- Message severities for `window/showMessage`; only `error` is used here. -/
inductive MessageType where
  | error
  | warning
  | info
  | log
deriving DecidableEq, Repr

/-- One outgoing server-to-client message.  `reply` and `replyError` model
the two `ReplyOnce` paths (both carry the request id); `showMessage`
models `pipeline::notify(window_showMessage, …)`. -/
inductive Outgoing where
  | reply (id : Nat) (result : String)
  | replyError (id : Nat) (code : ErrorCode) (message : String)
  | showMessage (type : MessageType) (message : String)
deriving DecidableEq, Repr

/-- Exceptions that can escape a handler invocation:
`std::invalid_argument` raised by `reflect` during parameter decoding
(carrying the expected-type text used for `ex.what()`), the distinguished
`NotIndexed` condition, and any other failure (`catch (...)`). -/
inductive HandlerError where
  | invalidArgument (what : String)
  | notIndexed (path : String)
  | other
deriving DecidableEq, Repr

/-- Result of invoking one registered handler on the current message: the
outgoing messages it produced before returning or raising, and the
exception it raised, if any. -/
def HandlerRun : Type := List Outgoing × Option HandlerError

/-- The incoming message: `msg.id.valid()` becomes `id.isSome`. -/
structure InMessage where
  id : Option Nat
  method : String

/-- Model of the typed request registration in `MessageHandler::bind`:
the registered lambda first decodes the parameter (`reflect(reader,
param)`, which raises `std::invalid_argument` carrying the expected type
on mismatch) and only then runs the handler body.  A decode failure
therefore aborts before the body produced any outgoing message. -/
def bindReq {Param : Type} (decode : Except String Param)
    (body : Param → HandlerRun) : HandlerRun :=
  match decode with
  | .error what => ([], some (.invalidArgument what))
  | .ok p => body p

/-- The dispatcher `MessageHandler::run` (lines 201-236).  The two method
tables are given as maps from method name to the registered handler's
behaviour on this message; `readerPath` is `reader.getPath()`.  The result
is the list of outgoing messages produced by the whole dispatch and the
exception propagated out of `run`, if any. -/
def run (method2request method2notification : String → Option HandlerRun)
    (readerPath : String) (msg : InMessage) : List Outgoing × Option HandlerError :=
  match msg.id with
  | some mid =>
    match method2request msg.method with
    | some h =>
      match h.2 with
      | none => (h.1, none)
      | some (.invalidArgument what) =>
        (h.1 ++ [.replyError mid .invalidParams
          ("invalid params of " ++ msg.method ++ ": expected " ++ what ++
            " for " ++ readerPath)], none)
      | some (.notIndexed p) => (h.1, some (.notIndexed p))
      | some .other =>
        (h.1 ++ [.replyError mid .internalError
          ("failed to process " ++ msg.method)], none)
    | none =>
      ([.replyError mid .methodNotFound ("unknown request " ++ msg.method)], none)
  | none =>
    match method2notification msg.method with
    | some h =>
      match h.2 with
      | none => (h.1, none)
      | some _ =>
        (h.1 ++ [.showMessage .error ("failed to process " ++ msg.method)], none)
    | none => ([], none)

/-- Count the replies (success or error) among outgoing messages. -/
def countReplies (l : List Outgoing) : Nat :=
  l.countP fun o =>
    match o with
    | .reply _ _ => true
    | .replyError _ _ _ => true
    | .showMessage _ _ => false

/-- The helper `MessageHandler::findOrFail` (lines 255-271), with the
working-file lookup (`wfiles->getFile`) and the index lookup (`findFile`)
supplied as their optional results.  Returns the pair handed back to the
caller, the outgoing messages, and the propagated exception, if any. -/
def findOrFail {W Q : Type} (wf : Option W) (file : Option Q) (overdue : Bool)
    (path : String) (mid : Nat) :
    (Option Q × Option W) × List Outgoing × Option HandlerError :=
  match wf with
  | none =>
    ((none, none),
      [.replyError mid .invalidRequest (path ++ " is not opened")], none)
  | some w =>
    match file with
    | none =>
      if !overdue then ((none, none), [], some (.notIndexed path))
      else ((none, none), [.replyError mid .invalidRequest "not indexed"], none)
    | some f => ((some f, some w), [], none)

theorem countReplies_append (a b : List Outgoing) :
    countReplies (a ++ b) = countReplies a + countReplies b :=
  List.countP_append _ _ _

/-- C3: a handler that raises the `NotIndexed` condition makes `run`
re-raise it to its caller without adding any reply, and `findOrFail`
raises `NotIndexed` exactly when the file is open but unindexed and the
system is not yet overdue; once overdue the same situation is answered
with an `InvalidRequest` reply carrying the message "not indexed". -/
theorem run_notIndexed_propagates_and_findOrFail
    (reqTab ntfTab : String → Option HandlerRun) (rp : String)
    (msg : InMessage) (mid : Nat) (effs : List Outgoing) (p : String)
    (hid : msg.id = some mid)
    (hh : reqTab msg.method = some (effs, some (.notIndexed p))) :
    (run reqTab ntfTab rp msg = (effs, some (.notIndexed p)) ∧
      countReplies (run reqTab ntfTab rp msg).1 = countReplies effs) ∧
    (∀ {W Q : Type} (wf : Option W) (file : Option Q) (overdue : Bool)
        (path : String) (mid2 : Nat),
      ((findOrFail wf file overdue path mid2).2.2 = some (.notIndexed path) ↔
        wf.isSome = true ∧ file = none ∧ overdue = false) ∧
      (wf.isSome = true → file = none → overdue = true →
        findOrFail wf file overdue path mid2 =
          ((none, none),
            [.replyError mid2 .invalidRequest "not indexed"], none))) := by
  constructor
  · simp [run, hid, hh]
  · intro W Q wf file overdue path mid2
    cases wf <;> cases file <;> cases overdue <;>
      simp [findOrFail]

/-- Witness for C3 at a concrete handler table and concrete
`findOrFail` inputs. -/
theorem run_notIndexed_witness :
    run (fun _ => some (([], some (.notIndexed "a.cc")) : HandlerRun))
        (fun _ => none) "" ⟨some 1, "textDocument/definition"⟩ =
      ([], some (.notIndexed "a.cc")) ∧
    findOrFail (some 0) (none : Option Nat) true "a.cc" 1 =
      ((none, none), [.replyError 1 .invalidRequest "not indexed"], none) := by
  have h := run_notIndexed_propagates_and_findOrFail
    (fun _ => some (([], some (.notIndexed "a.cc")) : HandlerRun))
    (fun _ => none) "" ⟨some 1, "textDocument/definition"⟩ 1 [] "a.cc" rfl rfl
  exact ⟨h.1.1, (h.2 (some 0) (none : Option Nat) true "a.cc" 1).2 rfl rfl rfl⟩

/-- C4: for a request (message with a valid id), an unregistered method is
answered with `MethodNotFound` without consulting any handler; a
parameter-decode failure (raised by `reflect` before the handler body ran)
is answered with `InvalidParams` whose message contains the expected type
and the JSON path; any other failure is answered with `InternalError`
naming the method; in each failure case exactly one reply is produced. -/
theorem run_request_failure_replies
    (reqTab ntfTab : String → Option HandlerRun) (rp : String)
    (msg : InMessage) (mid : Nat) (hid : msg.id = some mid) :
    (reqTab msg.method = none →
      run reqTab ntfTab rp msg =
        ([.replyError mid .methodNotFound ("unknown request " ++ msg.method)],
          none) ∧
      countReplies (run reqTab ntfTab rp msg).1 = 1) ∧
    (∀ (Param : Type) (what : String) (body : Param → HandlerRun),
      reqTab msg.method = some (bindReq (.error what) body) →
      run reqTab ntfTab rp msg =
        ([.replyError mid .invalidParams
            ("invalid params of " ++ msg.method ++ ": expected " ++ what ++
              " for " ++ rp)], none) ∧
      (∃ s1 s2, ("invalid params of " ++ msg.method ++ ": expected " ++ what ++
          " for " ++ rp) = s1 ++ what ++ s2) ∧
      (∃ s3, ("invalid params of " ++ msg.method ++ ": expected " ++ what ++
          " for " ++ rp) = s3 ++ rp) ∧
      countReplies (run reqTab ntfTab rp msg).1 = 1) ∧
    (∀ effs : List Outgoing,
      reqTab msg.method = some (effs, some .other) →
      run reqTab ntfTab rp msg =
        (effs ++ [.replyError mid .internalError
          ("failed to process " ++ msg.method)], none) ∧
      (effs = [] → countReplies (run reqTab ntfTab rp msg).1 = 1)) := by
  refine ⟨fun h => ?_, fun Param what body h => ?_, fun effs h => ?_⟩
  · simp [run, hid, h, countReplies]
  · refine ⟨?_, ⟨"invalid params of " ++ msg.method ++ ": expected ",
        " for " ++ rp, by simp [String.append_assoc]⟩,
      ⟨"invalid params of " ++ msg.method ++ ": expected " ++ what ++ " for ",
        by simp [String.append_assoc]⟩, ?_⟩ <;>
      simp [run, hid, h, bindReq, countReplies]
  · refine ⟨by simp [run, hid, h], fun he => ?_⟩
    subst he
    simp [run, hid, h, countReplies]

/-- Witness for C4 at concrete tables: an unknown method, a decode
failure, and a generic failure. -/
theorem run_request_failure_witness :
    run (fun _ => none) (fun _ => none) "p" ⟨some 7, "foo"⟩ =
      ([.replyError 7 .methodNotFound "unknown request foo"], none) ∧
    run (fun _ => some (bindReq (Except.error "int" : Except String Nat)
          (fun _ => ([], none)))) (fun _ => none) ".params" ⟨some 7, "foo"⟩ =
      ([.replyError 7 .invalidParams
          "invalid params of foo: expected int for .params"], none) ∧
    run (fun _ => some (([], some .other) : HandlerRun)) (fun _ => none)
        "p" ⟨some 7, "foo"⟩ =
      ([.replyError 7 .internalError "failed to process foo"], none) := by
  refine ⟨((run_request_failure_replies (fun _ => none) (fun _ => none) "p"
      ⟨some 7, "foo"⟩ 7 rfl).1 rfl).1, ?_, ?_⟩
  · exact (((run_request_failure_replies
      (fun _ => some (bindReq (Except.error "int" : Except String Nat)
        (fun _ => ([], none)))) (fun _ => none) ".params"
      ⟨some 7, "foo"⟩ 7 rfl).2.1 Nat "int" (fun _ => ([], none)) rfl).1)
  · have h := ((run_request_failure_replies
      (fun _ => some (([], some .other) : HandlerRun)) (fun _ => none) "p"
      ⟨some 7, "foo"⟩ 7 rfl).2.2 [] rfl).1
    simpa using h

/-- C5: for a notification (no id), an unregistered method is silently
dropped, and a failing handler is answered only by a `showMessage`
notification of `Error` severity naming the method: no reply is produced
and no exception propagates out of the dispatcher. -/
theorem run_notification_boundary
    (reqTab ntfTab : String → Option HandlerRun) (rp : String)
    (msg : InMessage) (hid : msg.id = none) :
    (ntfTab msg.method = none → run reqTab ntfTab rp msg = ([], none)) ∧
    (∀ (effs : List Outgoing) (e : HandlerError),
      ntfTab msg.method = some (effs, some e) →
      run reqTab ntfTab rp msg =
        (effs ++ [.showMessage .error ("failed to process " ++ msg.method)],
          none) ∧
      (run reqTab ntfTab rp msg).2 = none ∧
      countReplies (run reqTab ntfTab rp msg).1 = countReplies effs) := by
  refine ⟨fun h => by simp [run, hid, h], fun effs e h => ?_⟩
  refine ⟨by simp [run, hid, h], by simp [run, hid, h], ?_⟩
  simp only [run, hid, h]
  rw [countReplies_append]
  simp [countReplies]

/-- Witness for C5: a failing notification handler (raising the generic
failure) only yields a showMessage notification. -/
theorem run_notification_witness :
    run (fun _ => none)
        (fun _ => some (([], some .other) : HandlerRun)) ""
        ⟨none, "initialized"⟩ =
      ([.showMessage .error "failed to process initialized"], none) := by
  have h := ((run_notification_boundary (fun _ => none)
    (fun _ => some (([], some .other) : HandlerRun)) ""
    ⟨none, "initialized"⟩ rfl).2 [] .other rfl).1
  simpa using h

/-! ## Position and range model

The LSP-side `Position`/`lsRange` value types live in `lsp.hh`, which is
outside the given source file.  Modelled from the spec: a position is a
line/character pair with a total order primarily by line, then by
character; a range is a start/end pair ordered by start, tie-broken by
end.  The C++ field `end` is called `endp` here (`end` is a Lean
keyword). -/

structure Position where
  line : Int
  character : Int
deriving DecidableEq, Repr

def Position.lt (a b : Position) : Prop :=
  a.line < b.line ∨ (a.line = b.line ∧ a.character < b.character)

instance (a b : Position) : Decidable (Position.lt a b) := by
  unfold Position.lt; infer_instance

def Position.le (a b : Position) : Prop := Position.lt a b ∨ a = b

instance (a b : Position) : Decidable (Position.le a b) := by
  unfold Position.le; infer_instance

theorem Position.lt_trans {a b c : Position} (h1 : Position.lt a b)
    (h2 : Position.lt b c) : Position.lt a c := by
  rcases a with ⟨al, ac⟩; rcases b with ⟨bl, bc⟩; rcases c with ⟨cl, cc⟩
  unfold Position.lt at *
  simp only at *
  omega

theorem Position.lt_irrefl (a : Position) : ¬ Position.lt a a := by
  rcases a with ⟨al, ac⟩
  unfold Position.lt
  simp only
  omega

theorem Position.lt_trichotomy (a b : Position) :
    Position.lt a b ∨ a = b ∨ Position.lt b a := by
  rcases a with ⟨al, ac⟩; rcases b with ⟨bl, bc⟩
  unfold Position.lt
  simp only [Position.mk.injEq]
  omega

theorem Position.lt_asymm {a b : Position} (h : Position.lt a b) :
    ¬ Position.lt b a :=
  fun h2 => Position.lt_irrefl a (Position.lt_trans h h2)

theorem Position.le_trans {a b c : Position} (h1 : Position.le a b)
    (h2 : Position.le b c) : Position.le a c := by
  rcases h1 with h1 | rfl
  · rcases h2 with h2 | rfl
    · exact Or.inl (Position.lt_trans h1 h2)
    · exact Or.inl h1
  · exact h2

theorem Position.lt_of_le_of_lt {a b c : Position} (h1 : Position.le a b)
    (h2 : Position.lt b c) : Position.lt a c := by
  rcases h1 with h1 | rfl
  · exact Position.lt_trans h1 h2
  · exact h2

theorem Position.lt_of_lt_of_le {a b c : Position} (h1 : Position.lt a b)
    (h2 : Position.le b c) : Position.lt a c := by
  rcases h2 with h2 | rfl
  · exact Position.lt_trans h1 h2
  · exact h1

theorem Position.le_of_not_lt {a b : Position} (h : ¬ Position.lt b a) :
    Position.le a b := by
  rcases Position.lt_trichotomy a b with h1 | rfl | h1
  · exact Or.inl h1
  · exact Or.inr rfl
  · exact absurd h1 h

theorem Position.not_lt_of_le {a b : Position} (h : Position.le a b) :
    ¬ Position.lt b a := by
  rcases h with h | rfl
  · exact Position.lt_asymm h
  · exact Position.lt_irrefl a

structure lsRange where
  start : Position
  endp : Position
deriving DecidableEq, Repr

def lsRange.lt (a b : lsRange) : Prop :=
  Position.lt a.start b.start ∨
    (a.start = b.start ∧ Position.lt a.endp b.endp)

instance (a b : lsRange) : Decidable (lsRange.lt a b) := by
  unfold lsRange.lt; infer_instance

theorem lsRange.ltr_trans {a b c : lsRange} (h1 : lsRange.lt a b)
    (h2 : lsRange.lt b c) : lsRange.lt a c := by
  rcases h1 with h1 | ⟨e1, h1⟩ <;> rcases h2 with h2 | ⟨e2, h2⟩
  · exact Or.inl (Position.lt_trans h1 h2)
  · exact Or.inl (e2 ▸ h1)
  · exact Or.inl (e1 ▸ h2)
  · exact Or.inr ⟨e1.trans e2, Position.lt_trans h1 h2⟩

theorem lsRange.ltr_irrefl (a : lsRange) : ¬ lsRange.lt a a := by
  intro h
  rcases h with h | ⟨-, h⟩ <;> exact Position.lt_irrefl _ h

theorem lsRange.ltr_trichotomy (a b : lsRange) :
    lsRange.lt a b ∨ a = b ∨ lsRange.lt b a := by
  rcases Position.lt_trichotomy a.start b.start with h | h | h
  · exact Or.inl (Or.inl h)
  · rcases Position.lt_trichotomy a.endp b.endp with h2 | h2 | h2
    · exact Or.inl (Or.inr ⟨h, h2⟩)
    · refine Or.inr (Or.inl ?_)
      cases a; cases b; simp_all
    · exact Or.inr (Or.inr (Or.inr ⟨h.symm, h2⟩))
  · exact Or.inr (Or.inr (Or.inl h))

/-! ## Generic facts about strict orders, used to feed `mergeSort` -/

theorem not_lt_trans_of {α : Type _} (lt : α → α → Prop)
    (htr : ∀ {a b c : α}, lt a b → lt b c → lt a c)
    (htri : ∀ a b : α, lt a b ∨ a = b ∨ lt b a)
    (a b c : α) (h1 : ¬ lt b a) (h2 : ¬ lt c b) : ¬ lt c a := by
  intro hca
  rcases htri a b with h | rfl | h
  · exact h2 (htr hca h)
  · exact h2 hca
  · exact h1 h

theorem not_lt_total_of {α : Type _} (lt : α → α → Prop)
    (htr : ∀ {a b c : α}, lt a b → lt b c → lt a c)
    (hirr : ∀ a : α, ¬ lt a a) (a b : α) : ¬ lt b a ∨ ¬ lt a b := by
  by_cases h : lt b a
  · exact Or.inr fun h2 => hirr a (htr h2 h)
  · exact Or.inl h

/-! ## `ReplyOnce::replyLocationLink` (lines 104-117) -/

/-- Modelled from the spec: `LocationLink` (lsp.hh, outside the given
source) carries the rich link fields; its natural order compares the
fields lexicographically and its equality compares all fields. -/
structure LocationLink where
  targetUri : String
  targetRange : lsRange
  targetSelectionRange : lsRange
deriving DecidableEq, Repr

/-- Modelled from the spec: a plain `Location` as sent when the client
did not declare link support. -/
structure Location where
  uri : String
  range : lsRange
deriving DecidableEq, Repr

/-- Modelled from the spec: downgrading a link drops the link-specific
fields, keeping the target URI and the selection span. -/
def LocationLink.toLocation (l : LocationLink) : Location :=
  { uri := l.targetUri, range := l.targetSelectionRange }

/-- Natural (lexicographic) strict order on links.  URIs are compared by
their character lists. -/
def LocationLink.ltL (a b : LocationLink) : Prop :=
  a.targetUri.data < b.targetUri.data ∨ (a.targetUri = b.targetUri ∧
    (lsRange.lt a.targetRange b.targetRange ∨ (a.targetRange = b.targetRange ∧
      lsRange.lt a.targetSelectionRange b.targetSelectionRange)))

instance (a b : LocationLink) : Decidable (LocationLink.ltL a b) := by
  unfold LocationLink.ltL; infer_instance

theorem LocationLink.ltL_trans {a b c : LocationLink}
    (h1 : LocationLink.ltL a b) (h2 : LocationLink.ltL b c) :
    LocationLink.ltL a c := by
  rcases h1 with h1 | ⟨e1, h1⟩ <;> rcases h2 with h2 | ⟨e2, h2⟩
  · exact Or.inl (lt_trans h1 h2)
  · exact Or.inl (e2 ▸ h1)
  · exact Or.inl (e1 ▸ h2)
  · refine Or.inr ⟨e1.trans e2, ?_⟩
    rcases h1 with h1 | ⟨f1, h1⟩ <;> rcases h2 with h2 | ⟨f2, h2⟩
    · exact Or.inl (lsRange.ltr_trans h1 h2)
    · exact Or.inl (f2 ▸ h1)
    · exact Or.inl (f1 ▸ h2)
    · exact Or.inr ⟨f1.trans f2, lsRange.ltr_trans h1 h2⟩

theorem LocationLink.ltL_irrefl (a : LocationLink) :
    ¬ LocationLink.ltL a a := by
  intro h
  rcases h with h | ⟨-, h | ⟨-, h⟩⟩
  · exact lt_irrefl _ h
  · exact lsRange.ltr_irrefl _ h
  · exact lsRange.ltr_irrefl _ h

theorem LocationLink.ltL_trichotomy (a b : LocationLink) :
    LocationLink.ltL a b ∨ a = b ∨ LocationLink.ltL b a := by
  rcases lt_trichotomy a.targetUri.data b.targetUri.data with h | hd | h
  case inr.inl =>
    have h : a.targetUri = b.targetUri := by
      rcases a with ⟨⟨u⟩, r1, r2⟩; rcases b with ⟨⟨v⟩, s1, s2⟩
      simp only at hd
      simp [hd]
    rcases lsRange.ltr_trichotomy a.targetRange b.targetRange with h2 | h2 | h2
    · exact Or.inl (Or.inr ⟨h, Or.inl h2⟩)
    · rcases lsRange.ltr_trichotomy a.targetSelectionRange
        b.targetSelectionRange with h3 | h3 | h3
      · exact Or.inl (Or.inr ⟨h, Or.inr ⟨h2, h3⟩⟩)
      · refine Or.inr (Or.inl ?_)
        cases a; cases b; simp_all
      · exact Or.inr (Or.inr (Or.inr ⟨h.symm, Or.inr ⟨h2.symm, h3⟩⟩))
    · exact Or.inr (Or.inr (Or.inr ⟨h.symm, Or.inl h2⟩))
  · exact Or.inl (Or.inl h)
  · exact Or.inr (Or.inr (Or.inl h))

/-- The comparison fed to the sort: the non-strict order induced by the
natural `operator<`.  The shallow embedding realises `std::sort` as a
deterministic sort producing a permutation sorted by this relation. -/
def llLe (a b : LocationLink) : Prop := ¬ LocationLink.ltL b a

instance : DecidableRel llLe := fun a b => by unfold llLe; infer_instance

instance : IsTrans LocationLink llLe :=
  ⟨fun a b c h1 h2 => not_lt_trans_of LocationLink.ltL
    (fun h h2 => LocationLink.ltL_trans h h2)
    LocationLink.ltL_trichotomy a b c h1 h2⟩

instance : IsTotal LocationLink llLe :=
  ⟨fun a b => not_lt_total_of LocationLink.ltL
    (fun h h2 => LocationLink.ltL_trans h h2)
    LocationLink.ltL_irrefl a b⟩

/-- Helper for the `std::unique` idiom: `last` is the most recently kept
element; drop each element equal to it. -/
def uniqueAdjacentFrom {α : Type _} [DecidableEq α] (last : α) :
    List α → List α
  | [] => []
  | b :: rest =>
    if last = b then uniqueAdjacentFrom last rest
    else b :: uniqueAdjacentFrom b rest

/-- The `std::unique`-then-`erase` idiom: drop every element equal to its
immediate predecessor. -/
def uniqueAdjacent {α : Type _} [DecidableEq α] : List α → List α
  | [] => []
  | a :: rest => a :: uniqueAdjacentFrom a rest

theorem uniqueAdjacentFrom_sublist {α : Type _} [DecidableEq α]
    (l : List α) : ∀ a : α, (uniqueAdjacentFrom a l).Sublist l := by
  induction l with
  | nil => intro a; simp [uniqueAdjacentFrom]
  | cons b rest ih =>
    intro a
    rw [uniqueAdjacentFrom]
    by_cases heq : a = b
    · rw [if_pos heq]
      exact (ih a).trans (List.sublist_cons_self b rest)
    · rw [if_neg heq]
      exact (ih b).cons₂ b

theorem uniqueAdjacent_sublist {α : Type _} [DecidableEq α] (l : List α) :
    (uniqueAdjacent l).Sublist l := by
  cases l with
  | nil => simp [uniqueAdjacent]
  | cons a rest =>
    rw [uniqueAdjacent]
    exact (uniqueAdjacentFrom_sublist rest a).cons₂ a

theorem mem_cons_uniqueAdjacentFrom {α : Type _} [DecidableEq α] {x : α}
    (l : List α) : ∀ a : α,
    (x ∈ a :: uniqueAdjacentFrom a l ↔ x ∈ a :: l) := by
  induction l with
  | nil => intro a; simp [uniqueAdjacentFrom]
  | cons b rest ih =>
    intro a
    rw [uniqueAdjacentFrom]
    by_cases heq : a = b
    · rw [if_pos heq]
      subst heq
      rw [ih a]
      simp
    · rw [if_neg heq]
      have hb := ih b
      simp only [List.mem_cons] at hb ⊢
      tauto

theorem mem_uniqueAdjacent {α : Type _} [DecidableEq α] {x : α} {l : List α} :
    x ∈ uniqueAdjacent l ↔ x ∈ l := by
  cases l with
  | nil => simp [uniqueAdjacent]
  | cons a rest =>
    rw [uniqueAdjacent]
    exact mem_cons_uniqueAdjacentFrom rest a

theorem cons_uniqueAdjacentFrom_nodup {α : Type _} [DecidableEq α]
    {le : α → α → Prop} (hanti : ∀ {a b : α}, le a b → le b a → a = b)
    (l : List α) : ∀ a : α, (a :: l).Pairwise le →
    (a :: uniqueAdjacentFrom a l).Nodup := by
  induction l with
  | nil => intro a _; simp [uniqueAdjacentFrom]
  | cons b rest ih =>
    intro a hs
    rw [uniqueAdjacentFrom]
    by_cases heq : a = b
    · rw [if_pos heq]
      subst heq
      refine ih a ?_
      rcases hs with - | ⟨-, hs⟩
      exact hs
    · rw [if_neg heq]
      rcases hs with - | ⟨ha, hs⟩
      have hnd := ih b hs
      refine List.Pairwise.cons (fun x hx hax => ?_) hnd
      subst hax
      rcases List.mem_cons.1 hx with h | h
      · exact heq h
      · have hab : le a b := ha b (by simp)
        have hmem : a ∈ rest :=
          (uniqueAdjacentFrom_sublist rest b).subset h
        rcases hs with - | ⟨hb, -⟩
        exact heq (hanti hab (hb a hmem))

theorem uniqueAdjacent_nodup {α : Type _} [DecidableEq α]
    {le : α → α → Prop} (hanti : ∀ {a b : α}, le a b → le b a → a = b)
    {l : List α} (hs : l.Pairwise le) : (uniqueAdjacent l).Nodup := by
  cases l with
  | nil => simp [uniqueAdjacent]
  | cons a rest =>
    rw [uniqueAdjacent]
    exact cons_uniqueAdjacentFrom_nodup hanti rest a hs

/-- The deduplicate/sort/truncate pipeline of `replyLocationLink`:
`std::sort`, `std::unique`+`erase`, then `resize` when above the
configured `xref.maxNum`. -/
def processedLinks (maxNum : Nat) (result : List LocationLink) :
    List LocationLink :=
  if maxNum < (uniqueAdjacent (result.insertionSort llLe)).length
  then (uniqueAdjacent (result.insertionSort llLe)).take maxNum
  else uniqueAdjacent (result.insertionSort llLe)

/-- The body of `ReplyOnce::replyLocationLink`: after the pipeline, reply
with the rich links when `g_config->client.linkSupport` holds, otherwise
with each link downgraded to a plain `Location`. -/
def replyLocationLink (maxNum : Nat) (linkSupport : Bool)
    (result : List LocationLink) : List LocationLink ⊕ List Location :=
  if linkSupport then .inl (processedLinks maxNum result)
  else .inr ((processedLinks maxNum result).map LocationLink.toLocation)

theorem processedLinks_pairwise (maxNum : Nat) (result : List LocationLink) :
    (processedLinks maxNum result).Pairwise llLe := by
  have hs2 : (result.insertionSort llLe).Pairwise llLe :=
    List.sorted_insertionSort llLe result
  have hs3 := List.Pairwise.sublist
    (uniqueAdjacent_sublist (result.insertionSort llLe)) hs2
  unfold processedLinks
  split
  · exact List.Pairwise.sublist (List.take_sublist _ _) hs3
  · exact hs3

/-- C6: `replyLocationLink` replies with the candidates sorted by their
natural order, exact duplicates removed, truncated to the configured
maximum, as rich links when the client declared link support and as
downgraded plain locations otherwise; concretely, 5 candidates with one
exact duplicate and a maximum of 3 yield exactly 3 entries. -/
theorem replyLocationLink_spec (maxNum : Nat) (result : List LocationLink) :
    ((processedLinks maxNum result).Pairwise llLe ∧
     (processedLinks maxNum result).Nodup ∧
     (∀ x ∈ processedLinks maxNum result, x ∈ result) ∧
     (∀ x ∈ result, x ∈ uniqueAdjacent (result.insertionSort llLe)) ∧
     (processedLinks maxNum result).length =
       min maxNum (uniqueAdjacent (result.insertionSort llLe)).length) ∧
    (replyLocationLink maxNum true result =
        .inl (processedLinks maxNum result) ∧
     replyLocationLink maxNum false result =
        .inr ((processedLinks maxNum result).map LocationLink.toLocation) ∧
     ∀ loc ∈ (processedLinks maxNum result).map LocationLink.toLocation,
       ∃ l ∈ processedLinks maxNum result,
         loc = { uri := l.targetUri, range := l.targetSelectionRange }) := by
  refine ⟨⟨processedLinks_pairwise maxNum result, ?_, ?_, ?_, ?_⟩,
    rfl, rfl, ?_⟩
  · have hanti : ∀ {a b : LocationLink}, llLe a b → llLe b a → a = b := by
      intro a b h1 h2
      rcases LocationLink.ltL_trichotomy a b with h | h | h
      · exact absurd h h2
      · exact h
      · exact absurd h h1
    have hnd := uniqueAdjacent_nodup hanti
      (List.sorted_insertionSort llLe result)
    unfold processedLinks
    split
    · exact List.Nodup.sublist (List.take_sublist _ _) hnd
    · exact hnd
  · intro x hx
    have hx2 : x ∈ uniqueAdjacent (result.insertionSort llLe) := by
      unfold processedLinks at hx
      split at hx
      · exact List.take_subset _ _ hx
      · exact hx
    rw [mem_uniqueAdjacent] at hx2
    exact (List.perm_insertionSort llLe result).mem_iff.1 hx2
  · intro x hx
    rw [mem_uniqueAdjacent]
    exact (List.perm_insertionSort llLe result).mem_iff.2 hx
  · unfold processedLinks
    split
    · simp [List.length_take]
    · omega
  · intro loc hloc
    rcases List.mem_map.1 hloc with ⟨l, hl, rfl⟩
    exact ⟨l, hl, rfl⟩

/-- Witness for C6: the concrete scenario with 5 candidates (one exact
duplicate) and maximum 3 yields exactly 3 entries in both modes. -/
theorem replyLocationLink_witness :
    (∀ x ∈ processedLinks 3
      [⟨"c.cc", ⟨⟨0, 0⟩, ⟨0, 1⟩⟩, ⟨⟨0, 0⟩, ⟨0, 1⟩⟩⟩,
       ⟨"a.cc", ⟨⟨0, 0⟩, ⟨0, 1⟩⟩, ⟨⟨0, 0⟩, ⟨0, 1⟩⟩⟩,
       ⟨"b.cc", ⟨⟨0, 2⟩, ⟨0, 3⟩⟩, ⟨⟨0, 2⟩, ⟨0, 3⟩⟩⟩,
       ⟨"a.cc", ⟨⟨0, 0⟩, ⟨0, 1⟩⟩, ⟨⟨0, 0⟩, ⟨0, 1⟩⟩⟩,
       ⟨"d.cc", ⟨⟨0, 4⟩, ⟨0, 5⟩⟩, ⟨⟨0, 4⟩, ⟨0, 5⟩⟩⟩],
      x ∈ [⟨"c.cc", ⟨⟨0, 0⟩, ⟨0, 1⟩⟩, ⟨⟨0, 0⟩, ⟨0, 1⟩⟩⟩,
       ⟨"a.cc", ⟨⟨0, 0⟩, ⟨0, 1⟩⟩, ⟨⟨0, 0⟩, ⟨0, 1⟩⟩⟩,
       ⟨"b.cc", ⟨⟨0, 2⟩, ⟨0, 3⟩⟩, ⟨⟨0, 2⟩, ⟨0, 3⟩⟩⟩,
       ⟨"a.cc", ⟨⟨0, 0⟩, ⟨0, 1⟩⟩, ⟨⟨0, 0⟩, ⟨0, 1⟩⟩⟩,
       ⟨"d.cc", ⟨⟨0, 4⟩, ⟨0, 5⟩⟩, ⟨⟨0, 4⟩, ⟨0, 5⟩⟩⟩]) ∧
    (processedLinks 3
      [⟨"c.cc", ⟨⟨0, 0⟩, ⟨0, 1⟩⟩, ⟨⟨0, 0⟩, ⟨0, 1⟩⟩⟩,
       ⟨"a.cc", ⟨⟨0, 0⟩, ⟨0, 1⟩⟩, ⟨⟨0, 0⟩, ⟨0, 1⟩⟩⟩,
       ⟨"b.cc", ⟨⟨0, 2⟩, ⟨0, 3⟩⟩, ⟨⟨0, 2⟩, ⟨0, 3⟩⟩⟩,
       ⟨"a.cc", ⟨⟨0, 0⟩, ⟨0, 1⟩⟩, ⟨⟨0, 0⟩, ⟨0, 1⟩⟩⟩,
       ⟨"d.cc", ⟨⟨0, 4⟩, ⟨0, 5⟩⟩, ⟨⟨0, 4⟩, ⟨0, 5⟩⟩⟩]).length = 3 := by
  constructor
  · exact (replyLocationLink_spec 3 _).1.2.2.1
  · decide

/-! ## Index-side model for `emitSemanticHighlight`

The index value types (`position.hh`, `query.hh`) back the occurrence
data: an index `Pos` has an unsigned line and a signed column (−1 is the
invalid sentinel), a `Range` is a pair of them, a `SymbolRef` carries the
occurrence range plus the symbol identity `(usr, kind)` used as the
grouping key `SymbolIdx`.  Symbol kinds (`SymbolKind`, a `uint8_t`
enumeration) and storage classes are modelled as `Nat`. -/

inductive Kind where
  | invalid
  | file
  | func
  | type
  | var
deriving DecidableEq, Repr

structure Pos where
  line : Nat
  column : Int
deriving DecidableEq, Repr

structure Range where
  start : Pos
  endp : Pos
deriving DecidableEq, Repr

structure SymbolIdx where
  usr : Nat
  kind : Kind
deriving DecidableEq, Repr

structure SymbolRef where
  range : Range
  usr : Nat
  kind : Kind
  role : Nat
deriving DecidableEq, Repr

/-- One definition record of a function.  `shortName` is the result of
`def->name(false)`, the unqualified name. -/
structure QueryFuncDef where
  shortName : List Char
  kind : Nat
  storage : Nat
  parent_kind : Nat
deriving DecidableEq, Repr

/-- A function entry; the C++ field `def` is called `def_` (`def` is a
Lean keyword).  `anyDef` returns the first definition, if any. -/
structure QueryFunc where
  def_ : List QueryFuncDef
deriving DecidableEq, Repr

def QueryFunc.anyDef (f : QueryFunc) : Option QueryFuncDef := f.def_.head?

/-- One definition record of a type or variable; `spell` says whether the
definition carries a concrete spelling location. -/
structure QueryTypeDef where
  kind : Nat
  storage : Nat
  detailed_name : List Char
  spell : Bool
  parent_kind : Nat
deriving DecidableEq, Repr

structure QueryType where
  def_ : List QueryTypeDef
deriving DecidableEq, Repr

structure QueryVar where
  def_ : List QueryTypeDef
deriving DecidableEq, Repr

/-- The queried index database: `usr → index` maps and the entity
arrays. -/
structure DB where
  func_usr : Nat → Nat
  funcs : Nat → QueryFunc
  type_usr : Nat → Nat
  types : Nat → QueryType
  var_usr : Nat → Nat
  vars : Nat → QueryVar

/-- The per-symbol highlight accumulator
(`CclsSemanticHighlightSymbol`). -/
structure CclsSemanticHighlightSymbol where
  id : Int
  parentKind : Nat
  kind : Nat
  storage : Nat
  ranges : List (Nat × Nat)
  lsRanges : List lsRange
deriving DecidableEq, Repr

/-- Accumulator of the definition-scanning loops of the `Type` and `Var`
cases: current kind/storage/name and the parent kind resolved from the
first spelled definition. -/
structure ScanAcc where
  kind : Nat
  storage : Nat
  detailed_name : List Char
  parent_kind : Nat
deriving DecidableEq, Repr

/-- The `Type` case scan (lines 339-346): each definition overwrites kind
and name; the first definition with a spelling location also sets the
parent kind and stops the scan.  Storage is not touched. -/
def scanTypeDefs (acc : ScanAcc) : List QueryTypeDef → ScanAcc
  | [] => acc
  | d :: rest =>
    if d.spell then
      { kind := d.kind, storage := acc.storage,
        detailed_name := d.detailed_name, parent_kind := d.parent_kind }
    else
      scanTypeDefs
        { acc with kind := d.kind, detailed_name := d.detailed_name } rest

/-- The `Var` case scan (lines 352-360): like the type scan but storage is
also taken from each definition. -/
def scanVarDefs (acc : ScanAcc) : List QueryTypeDef → ScanAcc
  | [] => acc
  | d :: rest =>
    if d.spell then
      { kind := d.kind, storage := d.storage,
        detailed_name := d.detailed_name, parent_kind := d.parent_kind }
    else
      scanVarDefs { acc with kind := d.kind, storage := d.storage, detailed_name := d.detailed_name } rest

/-- The concise name: `detailed_name.substr(0, detailed_name.find('<'))`,
the name with template arguments stripped. -/
def conciseOf (name : List Char) : List Char :=
  name.takeWhile (fun c => c ≠ '<')

/-- The function-name presence check of the `Func` case (lines 318-334):
the occurrence survives only when its start line is inside the working
buffer's line table and the literal line text starting at the start
column equals the concise name; on success the end position is recomputed
to the same line, column `start + concise length`.  The source indexes the
line with `int16_t start_col`; for a valid occurrence (`start.column ≥ 0`,
the invariant of index ranges — a negative column would make the
`std::string_view::compare` call throw) the embedded guard `0 ≤ startCol`
is equivalent. -/
def funcCheckRange (indexLines : List (List Char)) (range : Range)
    (concise : List Char) : Option Range :=
  if range.start.line < indexLines.length then
    if 0 ≤ range.start.column ∧
        range.start.column + (concise.length : Int) ≤
          ((indexLines.getD range.start.line []).length : Int) ∧
        ((indexLines.getD range.start.line []).drop
          range.start.column.toNat).take concise.length = concise then
      some { start := range.start,
             endp := { line := range.start.line,
                       column := range.start.column + concise.length } }
    else none
  else none

/-- The eligibility information a surviving occurrence carries into its
accumulator. -/
structure EligibleInfo where
  idx : Nat
  parent_kind : Nat
  kind : Nat
  storage : Nat
deriving DecidableEq, Repr

/-- The `Kind::Func` case (lines 302-335): resolvable definition
required, overloadable operators excluded (`short_name.compare(0, 8,
"operator") == 0`), then the name-presence check with the recomputed end
column, then the display-range conversion. -/
def processFunc (db : DB) (indexLines : List (List Char))
    (getLs : Range → Option lsRange) (usr : Nat) (range : Range) :
    Option (SymbolIdx × EligibleInfo × lsRange) :=
  match (db.funcs (db.func_usr usr)).anyDef with
  | none => none
  | some d =>
    if d.shortName.take 8 = "operator".data then none
    else
      match funcCheckRange indexLines range (conciseOf d.shortName) with
      | none => none
      | some r =>
        match getLs r with
        | none => none
        | some loc =>
          some (⟨usr, .func⟩,
            ⟨db.func_usr usr, d.parent_kind, d.kind, d.storage⟩, loc)

/-- The `Kind::Type` case (lines 336-348). -/
def processType (db : DB) (getLs : Range → Option lsRange) (usr : Nat)
    (range : Range) : Option (SymbolIdx × EligibleInfo × lsRange) :=
  match getLs range with
  | none => none
  | some loc =>
    some (⟨usr, .type⟩,
      ⟨db.type_usr usr,
       (scanTypeDefs ⟨0, 0, [], 0⟩ (db.types (db.type_usr usr)).def_).parent_kind,
       (scanTypeDefs ⟨0, 0, [], 0⟩ (db.types (db.type_usr usr)).def_).kind,
       0⟩, loc)

/-- The `Kind::Var` case (lines 349-362). -/
def processVar (db : DB) (getLs : Range → Option lsRange) (usr : Nat)
    (range : Range) : Option (SymbolIdx × EligibleInfo × lsRange) :=
  match getLs range with
  | none => none
  | some loc =>
    some (⟨usr, .var⟩,
      ⟨db.var_usr usr,
       (scanVarDefs ⟨0, 0, [], 0⟩ (db.vars (db.var_usr usr)).def_).parent_kind,
       (scanVarDefs ⟨0, 0, [], 0⟩ (db.vars (db.var_usr usr)).def_).kind,
       (scanVarDefs ⟨0, 0, [], 0⟩ (db.vars (db.var_usr usr)).def_).storage⟩,
      loc)

/-- The body of the grouping loop of `emitSemanticHighlight`
(lines 292-380) for one occurrence `(sym, refcnt)`: `none` when the
occurrence is filtered out, otherwise the grouping key, the eligibility
information and the display range produced by `getLsRange` (supplied as a
parameter; `working_files.cc` is outside the given source). -/
def processOcc (db : DB) (indexLines : List (List Char))
    (getLs : Range → Option lsRange)
    (sym : SymbolRef) (refcnt : Int) :
    Option (SymbolIdx × EligibleInfo × lsRange) :=
  if refcnt ≤ 0 then none
  else
    match sym.kind with
    | .func => processFunc db indexLines getLs sym.usr sym.range
    | .type => processType db getLs sym.usr sym.range
    | .var => processVar db getLs sym.usr sym.range
    | _ => none

/-- Assoc-list update mirroring `grouped_symbols.find(sym)` followed by
either appending to the existing accumulator's `lsRanges` or inserting a
fresh accumulator. -/
def insertOcc (acc : List (SymbolIdx × CclsSemanticHighlightSymbol))
    (key : SymbolIdx) (info : EligibleInfo) (loc : lsRange) :
    List (SymbolIdx × CclsSemanticHighlightSymbol) :=
  match acc with
  | [] =>
    [(key, { id := Int.ofNat info.idx, parentKind := info.parent_kind,
             kind := info.kind, storage := info.storage,
             ranges := [], lsRanges := [loc] })]
  | (k, s) :: rest =>
    if k = key then (k, { s with lsRanges := s.lsRanges ++ [loc] }) :: rest
    else (k, s) :: insertOcc rest key info loc

/-- The grouping loop: fold `processOcc` over the occurrence list
`file.symbol2refcnt`. -/
def groupedSymbols (db : DB) (indexLines : List (List Char))
    (getLs : Range → Option lsRange) (occs : List (SymbolRef × Int)) :
    List (SymbolIdx × CclsSemanticHighlightSymbol) :=
  occs.foldl (fun acc oc =>
    match processOcc db indexLines getLs oc.1 oc.2 with
    | none => acc
    | some (key, info, loc) => insertOcc acc key info loc) []

/-- The text-match condition of the `Func` case in predicate form. -/
def textMatches (indexLines : List (List Char)) (range : Range)
    (concise : List Char) : Prop :=
  range.start.line < indexLines.length ∧
  0 ≤ range.start.column ∧
  range.start.column + (concise.length : Int) ≤
    ((indexLines.getD range.start.line []).length : Int) ∧
  ((indexLines.getD range.start.line []).drop
    range.start.column.toNat).take concise.length = concise

instance (indexLines : List (List Char)) (range : Range)
    (concise : List Char) :
    Decidable (textMatches indexLines range concise) := by
  unfold textMatches; infer_instance

theorem funcCheckRange_eq_some_iff (lines : List (List Char)) (range : Range)
    (concise : List Char) (r : Range) :
    funcCheckRange lines range concise = some r ↔
      (textMatches lines range concise ∧
       r = { start := range.start,
             endp := { line := range.start.line,
                       column := range.start.column + concise.length } }) := by
  unfold funcCheckRange textMatches
  by_cases h1 : range.start.line < lines.length
  · rw [if_pos h1]
    by_cases h2 : 0 ≤ range.start.column ∧
        range.start.column + (concise.length : Int) ≤
          ((lines.getD range.start.line []).length : Int) ∧
        ((lines.getD range.start.line []).drop
          range.start.column.toNat).take concise.length = concise
    · rw [if_pos h2]
      constructor
      · intro h
        exact ⟨⟨h1, h2⟩, (Option.some_injective _ h).symm⟩
      · rintro ⟨-, h⟩
        rw [h]
    · rw [if_neg h2]
      constructor
      · intro h; cases h
      · rintro ⟨⟨-, h⟩, -⟩
        exact absurd h h2
  · rw [if_neg h1]
    constructor
    · intro h; cases h
    · rintro ⟨⟨h, -⟩, -⟩
      exact absurd h h1

theorem funcCheckRange_eq_none_iff (lines : List (List Char)) (range : Range)
    (concise : List Char) :
    funcCheckRange lines range concise = none ↔
      ¬ textMatches lines range concise := by
  constructor
  · intro h hm
    have := (funcCheckRange_eq_some_iff lines range concise
      { start := range.start,
        endp := { line := range.start.line,
                  column := range.start.column + concise.length } }).2 ⟨hm, rfl⟩
    rw [h] at this
    cases this
  · intro hm
    cases h : funcCheckRange lines range concise with
    | none => rfl
    | some r =>
      exact absurd ((funcCheckRange_eq_some_iff lines range concise r).1 h).1 hm

/-- C7: a function occurrence with a resolvable, non-operator definition
is kept for highlighting only if the literal buffer text at its start
position equals the concise (template-argument-stripped) name exactly; on
a match the occurrence range's end is recomputed to the same line with
column `start + concise length` before the display-range conversion; on a
mismatch the occurrence is skipped. -/
theorem funcOcc_text_guard (db : DB) (lines : List (List Char))
    (getLs : Range → Option lsRange) (sym : SymbolRef) (refcnt : Int)
    (d : QueryFuncDef)
    (hk : sym.kind = .func) (hcnt : 0 < refcnt)
    (hvalid : 0 ≤ sym.range.start.column)
    (hdef : (db.funcs (db.func_usr sym.usr)).anyDef = some d)
    (hop : ¬ d.shortName.take 8 = "operator".data) :
    (processOcc db lines getLs sym refcnt ≠ none →
       textMatches lines sym.range (conciseOf d.shortName)) ∧
    (¬ textMatches lines sym.range (conciseOf d.shortName) →
       processOcc db lines getLs sym refcnt = none) ∧
    (textMatches lines sym.range (conciseOf d.shortName) →
       processOcc db lines getLs sym refcnt =
        (getLs { start := sym.range.start,
                 endp := { line := sym.range.start.line,
                           column := sym.range.start.column +
                             (conciseOf d.shortName).length } }).map
          (fun loc => (⟨sym.usr, sym.kind⟩,
            ⟨db.func_usr sym.usr, d.parent_kind, d.kind, d.storage⟩, loc))) := by
  have hproc : processOcc db lines getLs sym refcnt =
      match funcCheckRange lines sym.range (conciseOf d.shortName) with
      | none => none
      | some r =>
        match getLs r with
        | none => none
        | some loc =>
          some (⟨sym.usr, sym.kind⟩,
            ⟨db.func_usr sym.usr, d.parent_kind, d.kind, d.storage⟩, loc) := by
    rcases sym with ⟨range, usr, kind, role⟩
    simp only at hk hdef ⊢
    subst hk
    unfold processOcc
    rw [if_neg (by omega)]
    simp only [processFunc, hdef, if_neg hop]
  refine ⟨fun hne => ?_, fun hm => ?_, fun hm => ?_⟩
  · by_contra hm
    rw [hproc, (funcCheckRange_eq_none_iff _ _ _).2 hm] at hne
    exact hne rfl
  · rw [hproc, (funcCheckRange_eq_none_iff _ _ _).2 hm]
  · rw [hproc, (funcCheckRange_eq_some_iff lines sym.range
      (conciseOf d.shortName) _).2 ⟨hm, rfl⟩]
    cases hg : getLs { start := sym.range.start,
                       endp := { line := sym.range.start.line,
                                 column := sym.range.start.column +
                                   (conciseOf d.shortName).length } } with
    | none => simp [hg]
    | some loc => simp [hg]

/-- Witness for C7: a concrete matched occurrence (text "foo" at column
2) and the recomputed end column. -/
theorem funcOcc_text_guard_witness :
    processOcc
      { func_usr := fun _ => 0,
        funcs := fun _ => ⟨[⟨"foo".data, 12, 0, 0⟩]⟩,
        type_usr := fun _ => 0, types := fun _ => ⟨[]⟩,
        var_usr := fun _ => 0, vars := fun _ => ⟨[]⟩ }
      ["xxfoo".data]
      (fun r => some ⟨⟨r.start.line, r.start.column⟩, ⟨r.endp.line, r.endp.column⟩⟩)
      ⟨⟨⟨0, 2⟩, ⟨0, 3⟩⟩, 5, .func, 0⟩ 1 =
      some (⟨5, .func⟩, ⟨0, 0, 12, 0⟩, ⟨⟨0, 2⟩, ⟨0, 5⟩⟩) := by
  have h := (funcOcc_text_guard
    { func_usr := fun _ => 0,
      funcs := fun _ => ⟨[⟨"foo".data, 12, 0, 0⟩]⟩,
      type_usr := fun _ => 0, types := fun _ => ⟨[]⟩,
      var_usr := fun _ => 0, vars := fun _ => ⟨[]⟩ }
    ["xxfoo".data]
    (fun r => some ⟨⟨r.start.line, r.start.column⟩, ⟨r.endp.line, r.endp.column⟩⟩)
    ⟨⟨⟨0, 2⟩, ⟨0, 3⟩⟩, 5, .func, 0⟩ 1 ⟨"foo".data, 12, 0, 0⟩
    rfl (by decide) (by decide) rfl (by decide)).2.2 (by decide)
  rw [h]
  rfl

/-- Membership in `insertOcc`: every entry either keeps a key of the old
accumulator list or carries the inserted key, and every collected display
range is an old one or the inserted one. -/
theorem insertOcc_mem (acc : List (SymbolIdx × CclsSemanticHighlightSymbol))
    (key : SymbolIdx) (info : EligibleInfo) (loc : lsRange) :
    ∀ e ∈ insertOcc acc key info loc,
      (e.1 = key ∨ ∃ e2 ∈ acc, e.1 = e2.1) ∧
      (∀ x ∈ e.2.lsRanges, x = loc ∨ ∃ e2 ∈ acc, x ∈ e2.2.lsRanges) := by
  induction acc with
  | nil =>
    intro e he
    rw [insertOcc] at he
    rw [List.mem_singleton] at he
    subst he
    refine ⟨Or.inl rfl, fun x hx => ?_⟩
    simp only [List.mem_singleton] at hx
    exact Or.inl hx
  | cons hd tl ih =>
    intro e he
    rw [insertOcc] at he
    by_cases heq : hd.1 = key
    · rw [if_pos heq] at he
      rcases List.mem_cons.1 he with he | he
      · subst he
        refine ⟨Or.inr ⟨hd, by simp, rfl⟩, fun x hx => ?_⟩
        simp only [List.mem_append, List.mem_singleton] at hx
        rcases hx with hx | hx
        · exact Or.inr ⟨hd, by simp, hx⟩
        · exact Or.inl hx
      · refine ⟨Or.inr ⟨e, by simp [he], rfl⟩,
          fun x hx => Or.inr ⟨e, by simp [he], hx⟩⟩
    · rw [if_neg heq] at he
      rcases List.mem_cons.1 he with he | he
      · refine ⟨Or.inr ⟨hd, by simp, ?_⟩, fun x hx => Or.inr ⟨hd, by simp, ?_⟩⟩
        · rw [he]
        · rw [he] at hx
          exact hx
      · rcases ih e he with ⟨h1, h2⟩
        refine ⟨?_, fun x hx => ?_⟩
        · rcases h1 with h1 | ⟨e2, he2, h1⟩
          · exact Or.inl h1
          · exact Or.inr ⟨e2, by simp [he2], h1⟩
        · rcases h2 x hx with h | ⟨e2, he2, h⟩
          · exact Or.inl h
          · exact Or.inr ⟨e2, by simp [he2], h⟩

/-- Fold invariant of the grouping loop: a property of keys and collected
ranges that holds of the accumulator and of every `processOcc` success is
preserved. -/
theorem groupedSymbols_inv (db : DB) (lines : List (List Char))
    (getLs : Range → Option lsRange)
    (QK : SymbolIdx → Prop) (QR : lsRange → Prop) :
    ∀ (occs : List (SymbolRef × Int))
      (acc : List (SymbolIdx × CclsSemanticHighlightSymbol)),
      (∀ e ∈ acc, QK e.1 ∧ ∀ x ∈ e.2.lsRanges, QR x) →
      (∀ oc ∈ occs, ∀ key info loc,
        processOcc db lines getLs oc.1 oc.2 = some (key, info, loc) →
        QK key ∧ QR loc) →
      ∀ e ∈ occs.foldl (fun acc oc =>
          match processOcc db lines getLs oc.1 oc.2 with
          | none => acc
          | some (key, info, loc) => insertOcc acc key info loc) acc,
        QK e.1 ∧ ∀ x ∈ e.2.lsRanges, QR x := by
  intro occs
  induction occs with
  | nil =>
    intro acc hacc _ e he
    exact hacc e he
  | cons oc rest ih =>
    intro acc hacc hstep e he
    rw [List.foldl_cons] at he
    cases hp : processOcc db lines getLs oc.1 oc.2 with
    | none =>
      rw [hp] at he
      exact ih acc hacc (fun o ho => hstep o (by simp [ho])) e he
    | some v =>
      rcases v with ⟨key, info, loc⟩
      rw [hp] at he
      have hkl := hstep oc (by simp) key info loc hp
      refine ih (insertOcc acc key info loc) ?_
        (fun o ho => hstep o (by simp [ho])) e he
      intro e2 he2
      rcases insertOcc_mem acc key info loc e2 he2 with ⟨h1, h2⟩
      constructor
      · rcases h1 with h1 | ⟨e3, he3, h1⟩
        · rw [h1]; exact hkl.1
        · rw [h1]; exact (hacc e3 he3).1
      · intro x hx
        rcases h2 x hx with h | ⟨e3, he3, h⟩
        · rw [h]; exact hkl.2
        · exact (hacc e3 he3).2 x h

theorem processFunc_some_getLs (db : DB) (lines : List (List Char))
    (getLs : Range → Option lsRange) (usr : Nat) (range : Range)
    (key : SymbolIdx) (info : EligibleInfo) (loc : lsRange)
    (h : processFunc db lines getLs usr range = some (key, info, loc)) :
    ∃ r, getLs r = some loc := by
  unfold processFunc at h
  cases hdef : (db.funcs (db.func_usr usr)).anyDef with
  | none =>
    simp only [hdef] at h
    exact Option.noConfusion h
  | some d =>
    simp only [hdef] at h
    by_cases hop : d.shortName.take 8 = "operator".data
    · rw [if_pos hop] at h; cases h
    · rw [if_neg hop] at h
      cases hfc : funcCheckRange lines range (conciseOf d.shortName) with
      | none =>
        simp only [hfc] at h
        exact Option.noConfusion h
      | some r =>
        simp only [hfc] at h
        cases hg : getLs r with
        | none =>
          simp only [hg] at h
          exact Option.noConfusion h
        | some l =>
          simp only [hg, Option.some.injEq, Prod.mk.injEq] at h
          exact ⟨r, by rw [hg, h.2.2]⟩

theorem processOcc_some_getLs (db : DB) (lines : List (List Char))
    (getLs : Range → Option lsRange) (sym : SymbolRef) (refcnt : Int)
    (key : SymbolIdx) (info : EligibleInfo) (loc : lsRange)
    (h : processOcc db lines getLs sym refcnt = some (key, info, loc)) :
    ∃ r, getLs r = some loc := by
  unfold processOcc at h
  by_cases hc : refcnt ≤ 0
  · rw [if_pos hc] at h; cases h
  · rw [if_neg hc] at h
    rcases sym with ⟨range, usr, kind, role⟩
    cases kind with
    | invalid => exact Option.noConfusion h
    | file => exact Option.noConfusion h
    | func =>
      exact processFunc_some_getLs db lines getLs usr range key info loc h
    | type =>
      change processType db getLs usr range = some (key, info, loc) at h
      unfold processType at h
      cases hg : getLs range with
      | none =>
        simp only [hg] at h
        exact Option.noConfusion h
      | some l =>
        simp only [hg, Option.some.injEq, Prod.mk.injEq] at h
        exact ⟨range, by rw [hg, h.2.2]⟩
    | var =>
      change processVar db getLs usr range = some (key, info, loc) at h
      unfold processVar at h
      cases hg : getLs range with
      | none =>
        simp only [hg] at h
        exact Option.noConfusion h
      | some l =>
        simp only [hg, Option.some.injEq, Prod.mk.injEq] at h
        exact ⟨range, by rw [hg, h.2.2]⟩

/-- C10: occurrences that do not fit the current working buffer are
silently excluded: a function occurrence whose start line is at or beyond
the buffer's line table is skipped, an occurrence whose range conversion
yields no value contributes nothing, and every range collected into the
grouped symbol set stems from a successful conversion. -/
theorem outOfSync_occurrences_skipped (db : DB) (lines : List (List Char))
    (getLs : Range → Option lsRange) :
    (∀ (sym : SymbolRef) (refcnt : Int), sym.kind = .func →
      lines.length ≤ sym.range.start.line →
      processOcc db lines getLs sym refcnt = none) ∧
    (∀ (sym : SymbolRef) (refcnt : Int), (∀ r, getLs r = none) →
      processOcc db lines getLs sym refcnt = none) ∧
    (∀ (occs : List (SymbolRef × Int)),
      ∀ e ∈ groupedSymbols db lines getLs occs,
      ∀ x ∈ e.2.lsRanges, ∃ r, getLs r = some x) := by
  refine ⟨fun sym refcnt hk hline => ?_, fun sym refcnt hnone => ?_,
    fun occs e he x hx => ?_⟩
  · rcases sym with ⟨range, usr, kind, role⟩
    simp only at hk hline
    subst hk
    unfold processOcc
    by_cases hc : refcnt ≤ 0
    · rw [if_pos hc]
    · rw [if_neg hc]
      show processFunc db lines getLs usr range = none
      unfold processFunc
      cases hdef : (db.funcs (db.func_usr usr)).anyDef with
      | none => rfl
      | some d =>
        simp only [hdef]
        by_cases hop : d.shortName.take 8 = "operator".data
        · rw [if_pos hop]
        · rw [if_neg hop]
          have hfc : funcCheckRange lines range (conciseOf d.shortName) = none := by
            unfold funcCheckRange
            rw [if_neg (by omega)]
          simp only [hfc]
  · cases hres : processOcc db lines getLs sym refcnt with
    | none => rfl
    | some v =>
      rcases v with ⟨key, info, loc⟩
      rcases processOcc_some_getLs db lines getLs sym refcnt key info loc
        hres with ⟨r, hr⟩
      rw [hnone r] at hr
      cases hr
  · have := groupedSymbols_inv db lines getLs (fun _ => True)
      (fun x => ∃ r, getLs r = some x) occs [] (by simp)
      (fun oc _ key info loc hp =>
        ⟨trivial, processOcc_some_getLs db lines getLs oc.1 oc.2 key info
          loc hp⟩) e he
    exact this.2 x hx

/-- Witness for C10: a function occurrence on line 3 of a 1-line buffer
is skipped, and with a failing conversion everything is skipped. -/
theorem outOfSync_occurrences_witness :
    processOcc
      { func_usr := fun _ => 0,
        funcs := fun _ => ⟨[⟨"foo".data, 12, 0, 0⟩]⟩,
        type_usr := fun _ => 0, types := fun _ => ⟨[]⟩,
        var_usr := fun _ => 0, vars := fun _ => ⟨[]⟩ }
      ["xxfoo".data] (fun r => some ⟨⟨r.start.line, r.start.column⟩,
        ⟨r.endp.line, r.endp.column⟩⟩)
      ⟨⟨⟨3, 0⟩, ⟨3, 3⟩⟩, 5, .func, 0⟩ 1 = none ∧
    processOcc
      { func_usr := fun _ => 0,
        funcs := fun _ => ⟨[⟨"foo".data, 12, 0, 0⟩]⟩,
        type_usr := fun _ => 0, types := fun _ => ⟨[]⟩,
        var_usr := fun _ => 0, vars := fun _ => ⟨[]⟩ }
      ["xxfoo".data] (fun _ => none) ⟨⟨⟨0, 2⟩, ⟨0, 3⟩⟩, 5, .func, 0⟩ 1 =
      none := by
  constructor
  · exact (outOfSync_occurrences_skipped _ _ _).1 ⟨⟨⟨3, 0⟩, ⟨3, 3⟩⟩, 5, .func, 0⟩
      1 rfl (by decide)
  · exact (outOfSync_occurrences_skipped _ _ _).2.1 ⟨⟨⟨0, 2⟩, ⟨0, 3⟩⟩, 5, .func, 0⟩
      1 (fun _ => rfl)

/-! ## Scan-line overlap resolution (lines 78-97 and 383-420) -/

/-- A sweep event (`ScanLineEvent`).  The C++ event stores a pointer to
the owning accumulator; the embedding stores the accumulator's index in
the grouped list (`symIdx`, the arena-index rendering of the pointer)
together with the two accumulator fields the comparison dereferences
(`symKind` = `symbol->kind`, `symId` = `symbol->id`), both immutable
while sorting and sweeping. -/
structure ScanLineEvent where
  pos : Position
  end_pos : Position
  id : Int
  symIdx : Nat
  symKind : Nat
  symId : Int
deriving DecidableEq, Repr

/-- `ScanLineEvent::operator<` (lines 83-96): position ascending, then
the other endpoint descending, then `symbol->kind` ascending, finally
`symbol->id` ascending. -/
def ScanLineEvent.lt (a b : ScanLineEvent) : Prop :=
  if a.pos = b.pos then
    (if b.end_pos = a.end_pos then
      (if a.symKind = b.symKind then a.symId < b.symId
       else a.symKind < b.symKind)
     else Position.lt b.end_pos a.end_pos)
  else Position.lt a.pos b.pos

instance (a b : ScanLineEvent) : Decidable (ScanLineEvent.lt a b) := by
  unfold ScanLineEvent.lt; infer_instance

theorem ScanLineEvent.lt_iff (a b : ScanLineEvent) :
    ScanLineEvent.lt a b ↔
      (Position.lt a.pos b.pos ∨ (a.pos = b.pos ∧
        (Position.lt b.end_pos a.end_pos ∨ (a.end_pos = b.end_pos ∧
          (a.symKind < b.symKind ∨ (a.symKind = b.symKind ∧
            a.symId < b.symId)))))) := by
  unfold ScanLineEvent.lt
  by_cases h1 : a.pos = b.pos
  · rw [if_pos h1]
    by_cases h2 : b.end_pos = a.end_pos
    · rw [if_pos h2]
      by_cases h3 : a.symKind = b.symKind
      · rw [if_pos h3]
        constructor
        · intro h
          exact Or.inr ⟨h1, Or.inr ⟨h2.symm, Or.inr ⟨h3, h⟩⟩⟩
        · intro h
          rcases h with h | ⟨-, h | ⟨-, h | ⟨-, h⟩⟩⟩
          · exact absurd h (h1 ▸ Position.lt_irrefl _)
          · exact absurd h (h2 ▸ Position.lt_irrefl _)
          · exact absurd h (by rw [h3]; exact Nat.lt_irrefl _)
          · exact h
      · rw [if_neg h3]
        constructor
        · intro h
          exact Or.inr ⟨h1, Or.inr ⟨h2.symm, Or.inl h⟩⟩
        · intro h
          rcases h with h | ⟨-, h | ⟨-, h | ⟨he, h⟩⟩⟩
          · exact absurd h (h1 ▸ Position.lt_irrefl _)
          · exact absurd h (h2 ▸ Position.lt_irrefl _)
          · exact h
          · exact absurd he h3
    · rw [if_neg h2]
      constructor
      · intro h
        exact Or.inr ⟨h1, Or.inl h⟩
      · intro h
        rcases h with h | ⟨-, h | ⟨he, -⟩⟩
        · exact absurd h (h1 ▸ Position.lt_irrefl _)
        · exact h
        · exact absurd he.symm h2
  · rw [if_neg h1]
    constructor
    · intro h
      exact Or.inl h
    · intro h
      rcases h with h | ⟨he, -⟩
      · exact h
      · exact absurd he h1

theorem ScanLineEvent.ltev_irrefl (a : ScanLineEvent) :
    ¬ ScanLineEvent.lt a a := by
  rw [ScanLineEvent.lt_iff]
  intro h
  rcases h with h | ⟨-, h | ⟨-, h | ⟨-, h⟩⟩⟩
  · exact Position.lt_irrefl _ h
  · exact Position.lt_irrefl _ h
  · omega
  · omega

theorem ScanLineEvent.ltev_trans {a b c : ScanLineEvent}
    (h1 : ScanLineEvent.lt a b) (h2 : ScanLineEvent.lt b c) :
    ScanLineEvent.lt a c := by
  rw [ScanLineEvent.lt_iff] at *
  rcases h1 with h1 | ⟨e1, h1⟩
  · rcases h2 with h2 | ⟨e2, h2⟩
    · exact Or.inl (Position.lt_trans h1 h2)
    · exact Or.inl (e2 ▸ h1)
  · rcases h2 with h2 | ⟨e2, h2⟩
    · exact Or.inl (e1 ▸ h2)
    · refine Or.inr ⟨e1.trans e2, ?_⟩
      rcases h1 with h1 | ⟨f1, h1⟩
      · rcases h2 with h2 | ⟨f2, h2⟩
        · exact Or.inl (Position.lt_trans h2 h1)
        · exact Or.inl (f2 ▸ h1)
      · rcases h2 with h2 | ⟨f2, h2⟩
        · exact Or.inl (f1 ▸ h2)
        · refine Or.inr ⟨f1.trans f2, ?_⟩
          rcases h1 with h1 | ⟨g1, h1⟩ <;> rcases h2 with h2 | ⟨g2, h2⟩
          · exact Or.inl (Nat.lt_trans h1 h2)
          · exact Or.inl (g2 ▸ h1)
          · exact Or.inl (g1 ▸ h2)
          · exact Or.inr ⟨g1.trans g2, Int.lt_trans h1 h2⟩

/-- Two events that agree on every field `operator<` consults.  The
comparison cannot distinguish them (`std::sort` may order them either
way). -/
def ScanLineEvent.keyEqv (a b : ScanLineEvent) : Prop :=
  a.pos = b.pos ∧ a.end_pos = b.end_pos ∧ a.symKind = b.symKind ∧
    a.symId = b.symId

theorem ScanLineEvent.lt_weak_trichotomy (a b : ScanLineEvent) :
    ScanLineEvent.lt a b ∨ ScanLineEvent.keyEqv a b ∨
      ScanLineEvent.lt b a := by
  rw [ScanLineEvent.lt_iff, ScanLineEvent.lt_iff]
  rcases Position.lt_trichotomy a.pos b.pos with h1 | h1 | h1
  · exact Or.inl (Or.inl h1)
  · rcases Position.lt_trichotomy a.end_pos b.end_pos with h2 | h2 | h2
    · exact Or.inr (Or.inr (Or.inr ⟨h1.symm, Or.inl h2⟩))
    · rcases Nat.lt_trichotomy a.symKind b.symKind with h3 | h3 | h3
      · exact Or.inl (Or.inr ⟨h1, Or.inr ⟨h2, Or.inl h3⟩⟩)
      · rcases Int.lt_trichotomy a.symId b.symId with h4 | h4 | h4
        · exact Or.inl (Or.inr ⟨h1, Or.inr ⟨h2, Or.inr ⟨h3, h4⟩⟩⟩)
        · exact Or.inr (Or.inl ⟨h1, h2, h3, h4⟩)
        · exact Or.inr (Or.inr (Or.inr ⟨h1.symm, Or.inr ⟨h2.symm,
            Or.inr ⟨h3.symm, h4⟩⟩⟩))
      · exact Or.inr (Or.inr (Or.inr ⟨h1.symm, Or.inr ⟨h2.symm, Or.inl h3⟩⟩))
    · exact Or.inl (Or.inr ⟨h1, Or.inl h2⟩)
  · exact Or.inr (Or.inr (Or.inl h1))

theorem ScanLineEvent.lt_congr_right {a b c : ScanLineEvent}
    (he : ScanLineEvent.keyEqv a b) (h : ScanLineEvent.lt c a) :
    ScanLineEvent.lt c b := by
  obtain ⟨e1, e2, e3, e4⟩ := he
  rw [ScanLineEvent.lt_iff] at h ⊢
  rw [e1, e2, e3, e4] at h
  exact h

theorem ScanLineEvent.ltev_asymm {a b : ScanLineEvent}
    (h : ScanLineEvent.lt a b) : ¬ ScanLineEvent.lt b a :=
  fun h2 => ScanLineEvent.ltev_irrefl a (ScanLineEvent.ltev_trans h h2)

/-- The non-strict comparison fed to the deterministic sort embedding
`std::sort`. -/
def eventLe (a b : ScanLineEvent) : Prop := ¬ ScanLineEvent.lt b a

instance : DecidableRel eventLe := fun a b => by unfold eventLe; infer_instance

instance : IsTrans ScanLineEvent eventLe := by
  refine ⟨fun a b c h1 h2 hca => ?_⟩
  rcases ScanLineEvent.lt_weak_trichotomy a b with h | h | h
  · exact h2 (ScanLineEvent.ltev_trans hca h)
  · exact h2 (ScanLineEvent.lt_congr_right h hca)
  · exact h1 h

instance : IsTotal ScanLineEvent eventLe := by
  refine ⟨fun a b => ?_⟩
  by_cases h : ScanLineEvent.lt b a
  · exact Or.inr (ScanLineEvent.ltev_asymm h)
  · exact Or.inl h

/-- First consequence of the sort order used by the sweep: event
positions are non-decreasing. -/
theorem eventLe_pos_le {a b : ScanLineEvent} (h : eventLe a b) :
    Position.le a.pos b.pos := by
  unfold eventLe at h
  rw [ScanLineEvent.lt_iff] at h
  rcases Position.lt_trichotomy a.pos b.pos with h1 | h1 | h1
  · exact Or.inl h1
  · exact Or.inr h1
  · exact absurd (Or.inl h1) h

/-- Tag every collected range with its owning accumulator's arena index,
in iteration order, mirroring the nested event-building loops of lines
386-399; the position of a tagged range in this list is its interval id
(the monotonically increasing `id` counter). -/
def taggedRanges (syms : List CclsSemanticHighlightSymbol) :
    List (Nat × CclsSemanticHighlightSymbol × lsRange) :=
  syms.enum.flatMap fun p => p.2.lsRanges.map fun r => (p.1, p.2, r)

/-- The insertion event of interval `n` (line 391). -/
def openEv (n : Nat) (t : Nat × CclsSemanticHighlightSymbol × lsRange) :
    ScanLineEvent :=
  { pos := t.2.2.start, end_pos := t.2.2.endp, id := (n : Int),
    symIdx := t.1, symKind := t.2.1.kind, symId := t.2.1.id }

/-- The deletion event of interval `n` (line 395); its id is the bitwise
complement `~n = -n - 1`. -/
def closeEv (n : Nat) (t : Nat × CclsSemanticHighlightSymbol × lsRange) :
    ScanLineEvent :=
  { pos := t.2.2.endp, end_pos := t.2.2.endp, id := -(n : Int) - 1,
    symIdx := t.1, symKind := t.2.1.kind, symId := t.2.1.id }

/-- All sweep events of the grouped symbols, unsorted. -/
def buildEvents (syms : List CclsSemanticHighlightSymbol) :
    List ScanLineEvent :=
  (taggedRanges syms).enum.flatMap fun q => [openEv q.1 q.2, closeEv q.1 q.2]

/-- The sorted event list (`std::sort(events.begin(), events.end())`,
line 400). -/
def sortEvents (syms : List CclsSemanticHighlightSymbol) :
    List ScanLineEvent :=
  (buildEvents syms).insertionSort eventLe

/-- The pop of already-deleted stack tops
(`while (top && deleted[events[top-1].id]) top--;`, line 405). -/
def popDeleted (del : List Int) (stack : List ScanLineEvent) :
    List ScanLineEvent :=
  stack.dropWhile (fun e => del.contains e.id)

/-- The sweep loop of lines 404-420.  `prev` is the previous event
(`events[i-1]`), `stack` holds the currently-open intervals topmost
first (the in-place `events[0..top)` stack of the source), and `del` the
interval ids already marked deleted.  Produces the attributed spans
`(symIdx, start, end)` in emission order; the source appends each span to
`events[top-1].symbol->lsRanges`. -/
def emitSpan (prev : Option ScanLineEvent) (stack1 : List ScanLineEvent)
    (e : ScanLineEvent) : List (Nat × Position × Position) :=
  match prev, stack1 with
  | some pe, top :: _ =>
    if pe.pos = e.pos then [] else [(top.symIdx, pe.pos, e.pos)]
  | _, _ => []

def sweepGo (del : List Int) (stack : List ScanLineEvent)
    (prev : Option ScanLineEvent) :
    List ScanLineEvent → List (Nat × Position × Position)
  | [] => []
  | e :: rest =>
    let stack1 := popDeleted del stack
    let out := emitSpan prev stack1 e
    if 0 ≤ e.id then out ++ sweepGo del (e :: stack1) (some e) rest
    else out ++ sweepGo ((-e.id - 1) :: del) stack1 (some e) rest

/-- The resolved attribution list of one grouped-symbol collection. -/
def sweepAttrs (syms : List CclsSemanticHighlightSymbol) :
    List (Nat × Position × Position) :=
  sweepGo [] [] none (sortEvents syms)

/-- The whole overlap resolution: each accumulator's `lsRanges` is
cleared (line 398) and then refilled with the spans the sweep attributes
to it, in emission order. -/
def resolveRanges (syms : List CclsSemanticHighlightSymbol) :
    List CclsSemanticHighlightSymbol :=
  syms.enum.map fun p =>
    { p.2 with lsRanges := List.filterMap (fun a => if a.1 = p.1 then some ⟨a.2.1, a.2.2⟩ else none) (sweepAttrs syms) }

/-! ## The claimed event order (C2) -/

/-- Reference definition following the claim's words: position
ascending; among equal positions the other endpoint descending; then
symbol kind ascending; and finally the assigned interval id ascending.
The last tie-break compares the event's signed interval id. -/
def specEventLt (a b : ScanLineEvent) : Prop :=
  Position.lt a.pos b.pos ∨ (a.pos = b.pos ∧
    (Position.lt b.end_pos a.end_pos ∨ (a.end_pos = b.end_pos ∧
      (a.symKind < b.symKind ∨ (a.symKind = b.symKind ∧ a.id < b.id)))))

instance (a b : ScanLineEvent) : Decidable (specEventLt a b) := by
  unfold specEventLt; infer_instance

/-- Reference definition following the amended claim: the final
tie-break compares the owning accumulator's `id` (`symbol->id`), not the
event's interval id. -/
def specEventLtAmended (a b : ScanLineEvent) : Prop :=
  Position.lt a.pos b.pos ∨ (a.pos = b.pos ∧
    (Position.lt b.end_pos a.end_pos ∨ (a.end_pos = b.end_pos ∧
      (a.symKind < b.symKind ∨ (a.symKind = b.symKind ∧
        a.symId < b.symId)))))

/-- The designated macro-like symbol kind ordered after all others.
Modelled from the spec: `SymbolKind::Macro` is the largest `uint8_t`
enumerator (255). -/
def macroKind : Nat := 255

/-- C2 counterexample: two open events of distinct symbols sharing
position, end position and kind.  The claimed order (interval id
ascending) puts the id-0 event first, but `ScanLineEvent::operator<`
orders by the owning symbol's id and puts the id-1 event first — the
claim as stated is false. -/
theorem scanLineEvent_order_counterexample :
    specEventLt
      ⟨⟨0, 0⟩, ⟨0, 4⟩, 0, 0, 5, 7⟩ ⟨⟨0, 0⟩, ⟨0, 4⟩, 1, 1, 5, 3⟩ ∧
    ¬ ScanLineEvent.lt
      ⟨⟨0, 0⟩, ⟨0, 4⟩, 0, 0, 5, 7⟩ ⟨⟨0, 0⟩, ⟨0, 4⟩, 1, 1, 5, 3⟩ ∧
    ScanLineEvent.lt
      ⟨⟨0, 0⟩, ⟨0, 4⟩, 1, 1, 5, 3⟩ ⟨⟨0, 0⟩, ⟨0, 4⟩, 0, 0, 5, 7⟩ := by
  refine ⟨?_, ?_, ?_⟩ <;> decide

/-- C2 (amended): `ScanLineEvent::operator<` orders primarily by
position ascending, among equal positions by the other endpoint
descending, then by symbol kind ascending — which places the designated
macro-like kind (255) after every other kind — and finally by the owning
symbol's id ascending (not the event's interval id); and the events built
by `emitSemanticHighlight` are sorted by exactly this order. -/
theorem scanLineEvent_order_spec :
    (∀ a b : ScanLineEvent,
      ScanLineEvent.lt a b ↔ specEventLtAmended a b) ∧
    (∀ a b : ScanLineEvent, a.pos = b.pos → a.end_pos = b.end_pos →
      a.symKind < macroKind → b.symKind = macroKind →
      ScanLineEvent.lt a b) ∧
    (∀ syms : List CclsSemanticHighlightSymbol,
      (sortEvents syms).Sorted eventLe ∧
      (sortEvents syms).Perm (buildEvents syms)) := by
  refine ⟨fun a b => ScanLineEvent.lt_iff a b, fun a b h1 h2 h3 h4 => ?_,
    fun syms => ⟨List.sorted_insertionSort eventLe (buildEvents syms),
      List.perm_insertionSort eventLe (buildEvents syms)⟩⟩
  rw [ScanLineEvent.lt_iff]
  exact Or.inr ⟨h1, Or.inr ⟨h2, Or.inl (by omega)⟩⟩

/-- Witness for C2 (amended): a non-macro event sorts before a macro
event at the same position and endpoint. -/
theorem scanLineEvent_order_spec_witness :
    ScanLineEvent.lt ⟨⟨0, 0⟩, ⟨0, 4⟩, 0, 0, 5, 7⟩
      ⟨⟨0, 0⟩, ⟨0, 4⟩, 1, 1, 255, 3⟩ :=
  scanLineEvent_order_spec.2.1 ⟨⟨0, 0⟩, ⟨0, 4⟩, 0, 0, 5, 7⟩
    ⟨⟨0, 0⟩, ⟨0, 4⟩, 1, 1, 255, 3⟩ rfl rfl (by decide) rfl

/-! ## Byte-offset projection (lines 424-464) -/

/-- The cursor of the offset conversion (`int l = 0, c = 0, i = 0,
p = 0`): current line `l`, column `c`, byte index `i`, and the counter
`p` whose values form the emitted offset pairs.  The embedding carries
the not-yet-consumed byte suffix of the buffer alongside the state, so
`i` always equals the number of consumed bytes. -/
structure MovState where
  l : Int
  c : Int
  i : Nat
  p : Nat
deriving DecidableEq, Repr

/-- The line-advancing loop of `mov` (lines 439-444): consume bytes until
`line` newlines have been passed, advancing `p` for every byte that is
not a UTF-8 continuation byte (`buf[i] < 128 || 192 <= buf[i]`). -/
def movLines (line : Int) : List Nat → MovState → List Nat × MovState
  | [], s => ([], s)
  | b :: rest, s =>
    if s.l < line then
      movLines line rest
        { l := if b = 10 then s.l + 1 else s.l, c := s.c, i := s.i + 1,
          p := if b < 128 ∨ 192 ≤ b then s.p + 1 else s.p }
    else (b :: rest, s)

/-- The column-advancing loop of `mov` (lines 447-452): consume one code
point per column — a lead byte advances `c`, `p` and `i`, and when the
lead byte is `≥ 128` the following continuation bytes (`128 ≤ b < 192`)
are skipped as a unit, advancing only `i` (`skipping` is true while
inside such a skip). -/
def movCols (col : Int) : List Nat → MovState → Bool → List Nat × MovState
  | [], s, _ => ([], s)
  | b :: rest, s, skipping =>
    if skipping = true ∧ 128 ≤ b ∧ b < 192 then
      movCols col rest { s with i := s.i + 1 } true
    else if s.c < col ∧ b ≠ 10 then
      movCols col rest
        { s with c := s.c + 1, i := s.i + 1, p := s.p + 1 }
        (decide (128 ≤ b))
    else (b :: rest, s)

/-- One call of the `mov` lambda (lines 436-454): advance the cursor to
`(line, col)`.  The returned flag is true when the position cannot be
reached before the buffer (or the line) is exhausted, in which case the
caller drops the range silently. -/
def mov (line col : Int) (rem : List Nat) (s : MovState) :
    Bool × List Nat × MovState :=
  let s0 := if s.l < line then { s with c := 0 } else s
  let r1 := movLines line rem s0
  if r1.2.l < line then (true, r1.1, r1.2)
  else
    let r2 := movCols col r1.1 r1.2 false
    (decide (r2.2.c < col), r2.1, r2.2)

/-- The conversion loop over the sorted scratch list (lines 455-463): a
range whose start or end cannot be reached is dropped; otherwise the
pair of `p` values at its two endpoints is recorded for the owning
accumulator index.  The cursor persists across iterations — a single
forward scan. -/
def convGo (rem : List Nat) (s : MovState) :
    List (lsRange × Nat) → List (Nat × Nat × Nat)
  | [] => []
  | (r, j) :: rest =>
    let m1 := mov r.start.line r.start.character rem s
    if m1.1 then convGo m1.2.1 m1.2.2 rest
    else
      let m2 := mov r.endp.line r.endp.character m1.2.1 m1.2.2
      if m2.1 then convGo m2.2.1 m2.2.2 rest
      else (j, m1.2.2.p, m2.2.2.p) :: convGo m2.2.1 m2.2.2 rest

/-- The scratch comparator of line 433 (`l.first.start < r.first.start`)
as the non-strict sort relation. -/
def scratchLe (a b : lsRange × Nat) : Prop :=
  ¬ Position.lt b.1.start a.1.start

instance : DecidableRel scratchLe := fun a b => by
  unfold scratchLe; infer_instance

instance : IsTrans (lsRange × Nat) scratchLe := by
  refine ⟨fun a b c h1 h2 hca => ?_⟩
  rcases Position.lt_trichotomy a.1.start b.1.start with h | h | h
  · exact h2 (Position.lt_trans hca h)
  · exact h2 (h ▸ hca)
  · exact h1 h

instance : IsTotal (lsRange × Nat) scratchLe := by
  refine ⟨fun a b => ?_⟩
  by_cases h : Position.lt b.1.start a.1.start
  · exact Or.inr (Position.lt_asymm h)
  · exact Or.inl h

/-- The byte-offset projection (lines 425-464): flatten all resolved
display ranges into a scratch list tagged with the owning accumulator
index while clearing every `lsRanges` list, sort by range start, convert
with the single forward scan, and append each successful pair to its
owner's `ranges`. -/
def emitOffsets (buf : List Nat)
    (syms : List CclsSemanticHighlightSymbol) :
    List CclsSemanticHighlightSymbol :=
  let scratch := syms.enum.flatMap fun p => p.2.lsRanges.map fun r => (r, p.1)
  let convs := convGo buf ⟨0, 0, 0, 0⟩ (scratch.insertionSort scratchLe)
  syms.enum.map fun p =>
    { id := p.2.id, parentKind := p.2.parentKind, kind := p.2.kind,
      storage := p.2.storage,
      ranges := p.2.ranges ++
        (convs.filter (fun cv => cv.1 == p.1)).map (fun cv => cv.2),
      lsRanges := [] }

/-! ## The whole `emitSemanticHighlight` pipeline (lines 282-470) -/

/-- The published highlight payload of one file, with the working-file
state abstracted: occurrences are grouped, the scan line algorithm makes
the ranges non-overlapping, the ranges are projected to offset pairs
unless `lsRanges` mode is configured, and symbols left with no display
range are dropped.  The file-size cutoff and the allow/deny path matcher
gate the whole computation. -/
def emitSemanticHighlight (db : DB) (indexLines : List (List Char))
    (getLs : Range → Option lsRange) (occs : List (SymbolRef × Int))
    (buf : List Nat) (lsRangesMode : Bool) (largeFileSize : Nat)
    (matchesPath : Bool) : List (SymbolIdx × CclsSemanticHighlightSymbol) :=
  if largeFileSize < buf.length ∨ matchesPath = false then []
  else
    ((groupedSymbols db indexLines getLs occs).map Prod.fst).zip
      (if lsRangesMode then
        resolveRanges ((groupedSymbols db indexLines getLs occs).map Prod.snd)
       else emitOffsets buf
        (resolveRanges
          ((groupedSymbols db indexLines getLs occs).map Prod.snd)))
    |>.filter (fun e => !(e.2.ranges.isEmpty && e.2.lsRanges.isEmpty))

theorem processOcc_refcnt_le_zero (db : DB) (lines : List (List Char))
    (getLs : Range → Option lsRange) (sym : SymbolRef) (refcnt : Int)
    (h : refcnt ≤ 0) : processOcc db lines getLs sym refcnt = none := by
  unfold processOcc
  rw [if_pos h]

theorem processOcc_some_key (db : DB) (lines : List (List Char))
    (getLs : Range → Option lsRange) (sym : SymbolRef) (refcnt : Int)
    (key : SymbolIdx) (info : EligibleInfo) (loc : lsRange)
    (h : processOcc db lines getLs sym refcnt = some (key, info, loc)) :
    key = ⟨sym.usr, sym.kind⟩ ∧ 0 < refcnt := by
  by_cases hc : refcnt ≤ 0
  · rw [processOcc_refcnt_le_zero db lines getLs sym refcnt hc] at h
    cases h
  · refine ⟨?_, by omega⟩
    unfold processOcc at h
    rw [if_neg hc] at h
    rcases sym with ⟨range, usr, kind, role⟩
    cases kind with
    | invalid => exact Option.noConfusion h
    | file => exact Option.noConfusion h
    | func =>
      change processFunc db lines getLs usr range = some (key, info, loc) at h
      unfold processFunc at h
      cases hdef : (db.funcs (db.func_usr usr)).anyDef with
      | none =>
        simp only [hdef] at h
        exact Option.noConfusion h
      | some d =>
        simp only [hdef] at h
        by_cases hop : d.shortName.take 8 = "operator".data
        · rw [if_pos hop] at h; cases h
        · rw [if_neg hop] at h
          cases hfc : funcCheckRange lines range (conciseOf d.shortName) with
          | none =>
            simp only [hfc] at h
            exact Option.noConfusion h
          | some r =>
            simp only [hfc] at h
            cases hg : getLs r with
            | none =>
              simp only [hg] at h
              exact Option.noConfusion h
            | some l =>
              simp only [hg, Option.some.injEq, Prod.mk.injEq] at h
              exact h.1.symm
    | type =>
      change processType db getLs usr range = some (key, info, loc) at h
      unfold processType at h
      cases hg : getLs range with
      | none =>
        simp only [hg] at h
        exact Option.noConfusion h
      | some l =>
        simp only [hg, Option.some.injEq, Prod.mk.injEq] at h
        exact h.1.symm
    | var =>
      change processVar db getLs usr range = some (key, info, loc) at h
      unfold processVar at h
      cases hg : getLs range with
      | none =>
        simp only [hg] at h
        exact Option.noConfusion h
      | some l =>
        simp only [hg, Option.some.injEq, Prod.mk.injEq] at h
        exact h.1.symm

theorem processFunc_operator_none (db : DB) (lines : List (List Char))
    (getLs : Range → Option lsRange) (usr : Nat) (range : Range)
    (d : QueryFuncDef)
    (hdef : (db.funcs (db.func_usr usr)).anyDef = some d)
    (hop : d.shortName.take 8 = "operator".data) :
    processFunc db lines getLs usr range = none := by
  unfold processFunc
  simp only [hdef]
  rw [if_pos hop]

theorem processOcc_func_eq (db : DB) (lines : List (List Char))
    (getLs : Range → Option lsRange) (sym : SymbolRef) (refcnt : Int)
    (hk : sym.kind = .func) :
    processOcc db lines getLs sym refcnt =
      if refcnt ≤ 0 then none
      else processFunc db lines getLs sym.usr sym.range := by
  rcases sym with ⟨range, usr, kind, role⟩
  simp only at hk
  subst hk
  rfl

theorem groupedSymbols_key_source (db : DB) (lines : List (List Char))
    (getLs : Range → Option lsRange) (occs : List (SymbolRef × Int)) :
    ∀ e ∈ groupedSymbols db lines getLs occs,
      ∃ oc ∈ occs, 0 < oc.2 ∧ ∃ info loc,
        processOcc db lines getLs oc.1 oc.2 = some (e.1, info, loc) := by
  intro e he
  have := groupedSymbols_inv db lines getLs
    (fun k => ∃ oc ∈ occs, 0 < oc.2 ∧ ∃ info loc,
      processOcc db lines getLs oc.1 oc.2 = some (k, info, loc))
    (fun _ => True) occs [] (by simp) ?_ e he
  · exact this.1
  · intro oc hoc key info loc hp
    refine ⟨⟨oc, hoc, ?_, info, loc, hp⟩, trivial⟩
    by_contra hle
    rw [processOcc_refcnt_le_zero db lines getLs oc.1 oc.2 (by omega)] at hp
    cases hp

theorem emitSemanticHighlight_keys (db : DB) (lines : List (List Char))
    (getLs : Range → Option lsRange) (occs : List (SymbolRef × Int))
    (buf : List Nat) (lsRangesMode : Bool) (largeFileSize : Nat)
    (matchesPath : Bool) :
    ∀ e ∈ emitSemanticHighlight db lines getLs occs buf lsRangesMode
        largeFileSize matchesPath,
      ∃ g ∈ groupedSymbols db lines getLs occs, e.1 = g.1 := by
  intro e he
  unfold emitSemanticHighlight at he
  split at he
  · cases he
  · rcases e with ⟨k, v⟩
    have hz := (List.mem_filter.1 he).1
    have := List.of_mem_zip hz
    rcases List.mem_map.1 this.1 with ⟨g, hg, hgk⟩
    exact ⟨g, hg, hgk.symm⟩

/-- C8: an occurrence with non-positive reference count contributes
nothing; every grouped entry stems from a positive-refcount occurrence;
and a function symbol whose short name begins with the literal prefix
"operator" never appears in the grouped symbol set nor in the emitted
highlight payload, whatever its occurrences' reference counts. -/
theorem refcnt_and_operator_filtering (db : DB) (lines : List (List Char))
    (getLs : Range → Option lsRange) :
    (∀ (sym : SymbolRef) (refcnt : Int), refcnt ≤ 0 →
      processOcc db lines getLs sym refcnt = none) ∧
    (∀ occs : List (SymbolRef × Int),
      ∀ e ∈ groupedSymbols db lines getLs occs,
      ∃ oc ∈ occs, 0 < oc.2 ∧ ∃ info loc,
        processOcc db lines getLs oc.1 oc.2 = some (e.1, info, loc)) ∧
    (∀ (usr : Nat) (d : QueryFuncDef),
      (db.funcs (db.func_usr usr)).anyDef = some d →
      d.shortName.take 8 = "operator".data →
      (∀ occs : List (SymbolRef × Int),
        ∀ e ∈ groupedSymbols db lines getLs occs,
        e.1 ≠ ⟨usr, Kind.func⟩) ∧
      (∀ (occs : List (SymbolRef × Int)) (buf : List Nat)
          (lsRangesMode : Bool) (largeFileSize : Nat) (matchesPath : Bool),
        ∀ e ∈ emitSemanticHighlight db lines getLs occs buf lsRangesMode
            largeFileSize matchesPath,
        e.1 ≠ ⟨usr, Kind.func⟩)) := by
  have hgrp : ∀ (usr : Nat) (d : QueryFuncDef),
      (db.funcs (db.func_usr usr)).anyDef = some d →
      d.shortName.take 8 = "operator".data →
      ∀ occs : List (SymbolRef × Int),
        ∀ e ∈ groupedSymbols db lines getLs occs,
        e.1 ≠ ⟨usr, Kind.func⟩ := by
    intro usr d hdef hop occs e he hkey
    rcases groupedSymbols_key_source db lines getLs occs e he with
      ⟨oc, hoc, hpos, info, loc, hp⟩
    rcases processOcc_some_key db lines getLs oc.1 oc.2 _ info loc hp with
      ⟨hk, -⟩
    rw [hkey] at hk
    injection hk with husr0 hkind0
    rw [processOcc_func_eq db lines getLs oc.1 oc.2 hkind0.symm,
      if_neg (by omega), ← husr0,
      processFunc_operator_none db lines getLs usr oc.1.range d hdef hop]
      at hp
    cases hp
  refine ⟨processOcc_refcnt_le_zero db lines getLs,
    groupedSymbols_key_source db lines getLs,
    fun usr d hdef hop => ⟨hgrp usr d hdef hop, ?_⟩⟩
  intro occs buf lsRangesMode largeFileSize matchesPath e he hkey
  rcases emitSemanticHighlight_keys db lines getLs occs buf lsRangesMode
    largeFileSize matchesPath e he with ⟨g, hg, hgk⟩
  exact hgrp usr d hdef hop occs g hg (hgk ▸ hkey)

/-- Witness for C8: a function named `operator==` with a positive
refcount occurrence yields an empty grouped set, and a zero-refcount
occurrence is dropped. -/
theorem refcnt_and_operator_witness :
    (∀ e ∈ groupedSymbols
      { func_usr := fun _ => 0,
        funcs := fun _ => ⟨[⟨"operator==".data, 12, 0, 0⟩]⟩,
        type_usr := fun _ => 0, types := fun _ => ⟨[]⟩,
        var_usr := fun _ => 0, vars := fun _ => ⟨[]⟩ }
      ["operator==".data]
      (fun r => some ⟨⟨r.start.line, r.start.column⟩,
        ⟨r.endp.line, r.endp.column⟩⟩)
      [(⟨⟨⟨0, 0⟩, ⟨0, 10⟩⟩, 5, .func, 0⟩, 2)],
      e.1 ≠ ⟨5, Kind.func⟩) ∧
    processOcc
      { func_usr := fun _ => 0,
        funcs := fun _ => ⟨[⟨"operator==".data, 12, 0, 0⟩]⟩,
        type_usr := fun _ => 0, types := fun _ => ⟨[]⟩,
        var_usr := fun _ => 0, vars := fun _ => ⟨[]⟩ }
      ["operator==".data]
      (fun r => some ⟨⟨r.start.line, r.start.column⟩,
        ⟨r.endp.line, r.endp.column⟩⟩)
      ⟨⟨⟨0, 0⟩, ⟨0, 10⟩⟩, 5, .func, 0⟩ 0 = none := by
  have h := refcnt_and_operator_filtering
    { func_usr := fun _ => 0,
      funcs := fun _ => ⟨[⟨"operator==".data, 12, 0, 0⟩]⟩,
      type_usr := fun _ => 0, types := fun _ => ⟨[]⟩,
      var_usr := fun _ => 0, vars := fun _ => ⟨[]⟩ }
    ["operator==".data]
    (fun r => some ⟨⟨r.start.line, r.start.column⟩,
      ⟨r.endp.line, r.endp.column⟩⟩)
  constructor
  · exact (h.2.2 5 ⟨"operator==".data, 12, 0, 0⟩ rfl (by decide)).1
      [(⟨⟨⟨0, 0⟩, ⟨0, 10⟩⟩, 5, .func, 0⟩, 2)]
  · exact h.1 ⟨⟨⟨0, 0⟩, ⟨0, 10⟩⟩, 5, .func, 0⟩ 0 (by omega)

/-! ## Properties of the offset projection (C9) -/

theorem movLines_spec (line : Int) :
    ∀ (rem : List Nat) (s : MovState),
      ∃ consumed, rem = consumed ++ (movLines line rem s).1 ∧
        (movLines line rem s).2.i = s.i + consumed.length ∧
        (movLines line rem s).2.p = s.p +
          (consumed.filter (fun b => decide (b < 128 ∨ 192 ≤ b))).length ∧
        (movLines line rem s).2.c = s.c := by
  intro rem
  induction rem with
  | nil =>
    intro s
    exact ⟨[], by simp [movLines]⟩
  | cons b rest ih =>
    intro s
    rw [movLines]
    by_cases h : s.l < line
    · rw [if_pos h]
      have ihs := ih { l := if b = 10 then s.l + 1 else s.l, c := s.c, i := s.i + 1, p := if b < 128 ∨ 192 ≤ b then s.p + 1 else s.p }
      dsimp only at ihs
      rcases ihs with ⟨consumed, h1, h2, h3, h4⟩
      refine ⟨b :: consumed, ?_, ?_, ?_, by simpa using h4⟩
      · rw [List.cons_append, ← h1]
      · simp only [h2, List.length_cons]
        omega
      · rw [h3, List.filter_cons]
        by_cases hb : b < 128 ∨ 192 ≤ b
        · rw [if_pos hb, if_pos (decide_eq_true hb)]
          simp only [List.length_cons]
          omega
        · rw [if_neg hb, if_neg (by simp [hb])]
    · rw [if_neg h]
      exact ⟨[], by simp⟩

theorem movCols_spec (col : Int) :
    ∀ (rem : List Nat) (s : MovState) (skipping : Bool),
      ∃ consumed, rem = consumed ++ (movCols col rem s skipping).1 ∧
        (movCols col rem s skipping).2.i = s.i + consumed.length ∧
        ((movCols col rem s skipping).2.p : Int) - (s.p : Int) =
          (movCols col rem s skipping).2.c - s.c ∧
        s.p ≤ (movCols col rem s skipping).2.p ∧
        (movCols col rem s skipping).2.l = s.l := by
  intro rem
  induction rem with
  | nil =>
    intro s skipping
    exact ⟨[], by simp [movCols]⟩
  | cons b rest ih =>
    intro s skipping
    rw [movCols]
    by_cases h1 : skipping = true ∧ 128 ≤ b ∧ b < 192
    · rw [if_pos h1]
      have ihs := ih { s with i := s.i + 1 } true
      rcases ihs with ⟨consumed, g1, g2, g3, g4, g5⟩
      refine ⟨b :: consumed, ?_, ?_,
        by simpa using g3, by simpa using g4, by simpa using g5⟩
      · rw [List.cons_append, ← g1]
      · simp only [g2, List.length_cons]
        omega
    · rw [if_neg h1]
      by_cases h2 : s.c < col ∧ b ≠ 10
      · rw [if_pos h2]
        have ihs := ih { s with c := s.c + 1, i := s.i + 1, p := s.p + 1 } (decide (128 ≤ b))
        rcases ihs with ⟨consumed, g1, g2, g3, g4, g5⟩
        refine ⟨b :: consumed, ?_, ?_, ?_, ?_, by simpa using g5⟩
        · rw [List.cons_append, ← g1]
        · simp only [g2, List.length_cons]
          omega
        · simp only at g3
          omega
        · simp only at g4
          omega
      · rw [if_neg h2]
        exact ⟨[], by simp⟩

theorem emitOffsets_clears_lsRanges (buf : List Nat)
    (syms : List CclsSemanticHighlightSymbol) :
    ∀ sy ∈ emitOffsets buf syms, sy.lsRanges = [] := by
  intro sy hsy
  unfold emitOffsets at hsy
  rcases List.mem_map.1 hsy with ⟨p, -, hp⟩
  rw [← hp]

/-- C9 counterexample reference, modelled from the spec's words: the
byte offset of a reachable `(line, col)` position is the byte cursor `i`
of the forward scan at that position (`none` when unreachable). -/
def specByteOffset (buf : List Nat) (line col : Int) : Option Nat :=
  let m := mov line col buf ⟨0, 0, 0, 0⟩
  if m.1 then none else some m.2.2.i

/-- C9 counterexample: for the buffer holding the two-byte code point
`0xC3 0xA9` followed by `a`, the range spanning columns [0,2) of line 0
is emitted as the pair (0, 2) — the code-point offsets — whereas the
byte offsets of its endpoints are 0 and 3.  The emitted pair is not a
byte-offset pair. -/
theorem offset_pair_counterexample :
    (emitOffsets [195, 169, 97]
        [⟨0, 0, 0, 0, [], [⟨⟨0, 0⟩, ⟨0, 2⟩⟩]⟩]).map
      (fun sy => sy.ranges) = [[(0, 2)]] ∧
    specByteOffset [195, 169, 97] 0 0 = some 0 ∧
    specByteOffset [195, 169, 97] 0 2 = some 3 ∧
    ¬ ((0, 2) : Nat × Nat) = ((0, 3) : Nat × Nat) := by
  refine ⟨?_, ?_, ?_, ?_⟩ <;> decide

/-- C9 (amended): in offset mode every resolved display range is
converted to a pair of code-point offsets by a single forward scan over
the raw buffer — the byte cursor advances by each code point's full
encoded width while the column counter and the emitted offset counter
advance by one per code point; a range whose start or end cannot be
reached is dropped silently; and each symbol's line/column range list is
cleared and replaced by the offset-pair list. -/
theorem offset_projection_spec :
    (∀ (line : Int) (rem : List Nat) (s : MovState),
      ∃ consumed, rem = consumed ++ (movLines line rem s).1 ∧
        (movLines line rem s).2.i = s.i + consumed.length ∧
        (movLines line rem s).2.p = s.p +
          (consumed.filter (fun b => decide (b < 128 ∨ 192 ≤ b))).length) ∧
    (∀ (col : Int) (rem : List Nat) (s : MovState) (skipping : Bool),
      ∃ consumed, rem = consumed ++ (movCols col rem s skipping).1 ∧
        (movCols col rem s skipping).2.i = s.i + consumed.length ∧
        ((movCols col rem s skipping).2.p : Int) - (s.p : Int) =
          (movCols col rem s skipping).2.c - s.c) ∧
    (∀ (buf : List Nat) (syms : List CclsSemanticHighlightSymbol),
      ∀ sy ∈ emitOffsets buf syms, sy.lsRanges = []) ∧
    (∀ (rem : List Nat) (s : MovState) (r : lsRange) (j : Nat)
        (rest : List (lsRange × Nat)),
      ((mov r.start.line r.start.character rem s).1 = true →
        convGo rem s ((r, j) :: rest) =
          convGo (mov r.start.line r.start.character rem s).2.1
            (mov r.start.line r.start.character rem s).2.2 rest) ∧
      ((mov r.start.line r.start.character rem s).1 = false →
        (mov r.endp.line r.endp.character
          (mov r.start.line r.start.character rem s).2.1
          (mov r.start.line r.start.character rem s).2.2).1 = true →
        convGo rem s ((r, j) :: rest) =
          convGo (mov r.endp.line r.endp.character
              (mov r.start.line r.start.character rem s).2.1
              (mov r.start.line r.start.character rem s).2.2).2.1
            (mov r.endp.line r.endp.character
              (mov r.start.line r.start.character rem s).2.1
              (mov r.start.line r.start.character rem s).2.2).2.2 rest) ∧
      ((mov r.start.line r.start.character rem s).1 = false →
        (mov r.endp.line r.endp.character
          (mov r.start.line r.start.character rem s).2.1
          (mov r.start.line r.start.character rem s).2.2).1 = false →
        convGo rem s ((r, j) :: rest) =
          (j, (mov r.start.line r.start.character rem s).2.2.p,
            (mov r.endp.line r.endp.character
              (mov r.start.line r.start.character rem s).2.1
              (mov r.start.line r.start.character rem s).2.2).2.2.p) ::
          convGo (mov r.endp.line r.endp.character
              (mov r.start.line r.start.character rem s).2.1
              (mov r.start.line r.start.character rem s).2.2).2.1
            (mov r.endp.line r.endp.character
              (mov r.start.line r.start.character rem s).2.1
              (mov r.start.line r.start.character rem s).2.2).2.2 rest)) := by
  refine ⟨?_, ?_, emitOffsets_clears_lsRanges, ?_⟩
  · intro line rem s
    rcases movLines_spec line rem s with ⟨consumed, h1, h2, h3, -⟩
    exact ⟨consumed, h1, h2, h3⟩
  · intro col rem s skipping
    rcases movCols_spec col rem s skipping with ⟨consumed, h1, h2, h3, -, -⟩
    exact ⟨consumed, h1, h2, h3⟩
  · intro rem s r j rest
    refine ⟨fun h1 => ?_, fun h1 h2 => ?_, fun h1 h2 => ?_⟩
    · rw [convGo, if_pos h1]
    · rw [convGo, if_neg (by rw [h1]; exact Bool.false_ne_true), if_pos h2]
    · rw [convGo, if_neg (by rw [h1]; exact Bool.false_ne_true),
        if_neg (by rw [h2]; exact Bool.false_ne_true)]

/-- Witness for C9 (amended): the conditional conversion equations at a
concrete buffer — range (0,0)-(0,2) over the 3-byte buffer succeeds and
emits the code-point pair, while range on line 7 fails and is dropped. -/
theorem offset_projection_spec_witness :
    convGo [195, 169, 97] ⟨0, 0, 0, 0⟩
      [(⟨⟨0, 0⟩, ⟨0, 2⟩⟩, 1), (⟨⟨7, 0⟩, ⟨7, 1⟩⟩, 0)] = [(1, 0, 2)] := by
  have hkeep := (offset_projection_spec.2.2.2 [195, 169, 97] ⟨0, 0, 0, 0⟩
    ⟨⟨0, 0⟩, ⟨0, 2⟩⟩ 1 [(⟨⟨7, 0⟩, ⟨7, 1⟩⟩, 0)]).2.2 (by decide) (by decide)
  rw [hkeep]
  decide

/-! ## Verification of the scan-line resolution (C1)

Spec-side notions: a point is covered by an open event when it lies in
the event's half-open range, the LIFO owner of a point is the symbol of
the last-opened event (in sorted order) among those still open at the
point, and a point is input-covered when some collected range of some
accumulator contains it. -/

def covers (e : ScanLineEvent) (x : Position) : Prop :=
  0 ≤ e.id ∧ Position.le e.pos x ∧ Position.lt x e.end_pos

instance (e : ScanLineEvent) (x : Position) : Decidable (covers e x) := by
  unfold covers; infer_instance

/-- The last-opened-and-still-open rule: among the sorted events, the
last open event whose range contains `x` owns `x`. -/
def lifoOwner (es : List ScanLineEvent) (x : Position) : Option Nat :=
  ((es.filter fun e => decide (covers e x)).getLast?).map ScanLineEvent.symIdx

/-- A point covered by some collected input range. -/
def inputCovered (syms : List CclsSemanticHighlightSymbol)
    (x : Position) : Prop :=
  ∃ s ∈ syms, ∃ r ∈ s.lsRanges,
    Position.le r.start x ∧ Position.lt x r.endp

/-! Generic list helpers for the sweep proof. -/

theorem dropWhile_eq_cons_head {α : Type _} {p : α → Bool} :
    ∀ {l : List α} {a : α} {rest : List α},
      l.dropWhile p = a :: rest → p a = false := by
  intro l
  induction l with
  | nil => intro a rest h; cases h
  | cons b l2 ih =>
    intro a rest h
    rw [List.dropWhile_cons] at h
    by_cases hb : p b
    · rw [if_pos hb] at h
      exact ih h
    · rw [if_neg hb] at h
      cases h
      simpa using hb

theorem filter_dropWhile_not {α : Type _} (p : α → Bool) (l : List α) :
    (l.dropWhile p).filter (fun x => !(p x)) =
      l.filter (fun x => !(p x)) := by
  conv_rhs => rw [← List.takeWhile_append_dropWhile p l]
  rw [List.filter_append]
  have : (l.takeWhile p).filter (fun x => !(p x)) = [] := by
    rw [List.filter_eq_nil_iff]
    intro a ha
    simp [List.mem_takeWhile_imp ha]
  rw [this, List.nil_append]

theorem pairwise_filterMap_of {α β : Type _} (f : α → Option β)
    {R : α → α → Prop} {S : β → β → Prop}
    (h : ∀ a b, R a b → ∀ c, f a = some c → ∀ d, f b = some d → S c d) :
    ∀ {l : List α}, l.Pairwise R → (l.filterMap f).Pairwise S := by
  intro l
  induction l with
  | nil => intro; simp
  | cons a l2 ih =>
    intro hp
    rcases hp with - | ⟨ha, hp⟩
    rw [List.filterMap_cons]
    cases hfa : f a with
    | none => exact ih hp
    | some c =>
      refine List.Pairwise.cons (fun d hd => ?_) (ih hp)
      rcases List.mem_filterMap.1 hd with ⟨b, hb, hfb⟩
      exact h a b (ha b hb) c hfa d hfb

/-! Structural facts about the built events. -/

theorem mem_buildEvents {syms : List CclsSemanticHighlightSymbol}
    {e : ScanLineEvent} :
    e ∈ buildEvents syms ↔ ∃ n t, (taggedRanges syms)[n]? = some t ∧
      (e = openEv n t ∨ e = closeEv n t) := by
  unfold buildEvents
  rw [List.mem_flatMap]
  constructor
  · rintro ⟨q, hq, hm⟩
    rw [List.mem_enum_iff_getElem?] at hq
    simp only [List.mem_cons, List.mem_singleton, List.not_mem_nil,
      or_false] at hm
    exact ⟨q.1, q.2, hq, hm⟩
  · rintro ⟨n, t, hget, hm⟩
    refine ⟨(n, t), List.mem_enum_iff_getElem?.2 hget, ?_⟩
    simpa using hm

theorem open_shape {syms : List CclsSemanticHighlightSymbol}
    {e : ScanLineEvent} (he : e ∈ buildEvents syms) (hid : 0 ≤ e.id) :
    ∃ t, (taggedRanges syms)[e.id.toNat]? = some t ∧
      e = openEv e.id.toNat t := by
  rcases mem_buildEvents.1 he with ⟨n, t, hget, he2 | he2⟩
  · subst he2
    have hn : (openEv n t).id.toNat = n := by
      simp only [openEv]
      omega
    rw [hn]
    exact ⟨t, hget, rfl⟩
  · subst he2
    exfalso
    simp only [closeEv] at hid
    omega

theorem close_shape {syms : List CclsSemanticHighlightSymbol}
    {e : ScanLineEvent} (he : e ∈ buildEvents syms) (hid : e.id < 0) :
    ∃ t, (taggedRanges syms)[(-e.id - 1).toNat]? = some t ∧
      e = closeEv (-e.id - 1).toNat t := by
  rcases mem_buildEvents.1 he with ⟨n, t, hget, he2 | he2⟩
  · subst he2
    exfalso
    simp only [openEv] at hid
    omega
  · subst he2
    have hn : (-(closeEv n t).id - 1).toNat = n := by
      simp only [closeEv]
      omega
    rw [hn]
    exact ⟨t, hget, rfl⟩

theorem close_exists {syms : List CclsSemanticHighlightSymbol}
    {e : ScanLineEvent} (he : e ∈ buildEvents syms) (hid : 0 ≤ e.id) :
    ∃ c ∈ buildEvents syms, c.id < 0 ∧ -c.id - 1 = e.id ∧
      c.pos = e.end_pos := by
  rcases open_shape he hid with ⟨t, hget, hshape⟩
  refine ⟨closeEv e.id.toNat t, mem_buildEvents.2
    ⟨e.id.toNat, t, hget, Or.inr rfl⟩, ?_, ?_, ?_⟩
  · simp only [closeEv]
    omega
  · simp only [closeEv]
    omega
  · rw [hshape]
    rfl

theorem close_pos_of_open {syms : List CclsSemanticHighlightSymbol}
    {o c : ScanLineEvent} (ho : o ∈ buildEvents syms)
    (hc : c ∈ buildEvents syms) (hido : 0 ≤ o.id) (hidc : c.id < 0)
    (hlink : -c.id - 1 = o.id) : c.pos = o.end_pos := by
  rcases open_shape ho hido with ⟨t, hget, hshape⟩
  rcases close_shape hc hidc with ⟨t2, hget2, hshape2⟩
  rw [hlink] at hget2 hshape2
  rw [hget] at hget2
  cases hget2
  rw [hshape, hshape2]
  rfl

theorem covered_iff_open (syms : List CclsSemanticHighlightSymbol)
    (x : Position) :
    inputCovered syms x ↔ ∃ o ∈ buildEvents syms, covers o x := by
  constructor
  · rintro ⟨s, hs, r, hr, hx1, hx2⟩
    rcases List.mem_iff_getElem?.1 hs with ⟨i, hi⟩
    have ht : (i, s, r) ∈ taggedRanges syms := by
      unfold taggedRanges
      rw [List.mem_flatMap]
      exact ⟨(i, s), List.mem_enum_iff_getElem?.2 hi,
        List.mem_map.2 ⟨r, hr, rfl⟩⟩
    rcases List.mem_iff_getElem?.1 ht with ⟨n, hn⟩
    refine ⟨openEv n (i, s, r),
      mem_buildEvents.2 ⟨n, (i, s, r), hn, Or.inl rfl⟩, ?_, hx1, hx2⟩
    simp [openEv]
  · rintro ⟨o, ho, hcov⟩
    rcases open_shape ho hcov.1 with ⟨t, hget, hshape⟩
    have ht : t ∈ taggedRanges syms :=
      List.mem_iff_getElem?.2 ⟨o.id.toNat, hget⟩
    unfold taggedRanges at ht
    rcases List.mem_flatMap.1 ht with ⟨q, hq, hmap⟩
    rcases List.mem_map.1 hmap with ⟨r, hr, hrt⟩
    have hqmem := List.mem_enum_iff_getElem?.1 hq
    have hsmem : q.2 ∈ syms := List.mem_iff_getElem?.2 ⟨q.1, hqmem⟩
    refine ⟨q.2, hsmem, r, hr, ?_, ?_⟩
    · have : o.pos = r.start := by
        rw [hshape, ← hrt]
        rfl
      rw [← this]
      exact hcov.2.1
    · have : o.end_pos = r.endp := by
        rw [hshape, ← hrt]
        rfl
      rw [← this]
      exact hcov.2.2

/-! The stack invariant of the sweep: forgetting deleted entries, the
stack read bottom-up is exactly the list of still-open insertion events
of the processed prefix, in processing order. -/

def StackInv (del : List Int) (stack done : List ScanLineEvent) : Prop :=
  stack.reverse.filter (fun e => !(del.contains e.id)) =
    done.filter (fun e => decide (0 ≤ e.id) && !(del.contains e.id))

theorem stackInv_pop {del : List Int} {stack done : List ScanLineEvent}
    (h : StackInv del stack done) :
    StackInv del (popDeleted del stack) done := by
  unfold StackInv popDeleted at *
  rw [← h, List.filter_reverse, List.filter_reverse,
    filter_dropWhile_not (fun e => del.contains e.id) stack]

theorem stackInv_top_none {del : List Int} {stack done : List ScanLineEvent}
    (h : StackInv del stack done)
    (hempty : popDeleted del stack = []) :
    done.filter (fun e => decide (0 ≤ e.id) && !(del.contains e.id)) = [] := by
  have h2 := stackInv_pop h
  rw [hempty] at h2
  unfold StackInv at h2
  simpa using h2.symm

theorem stackInv_top_some {del : List Int} {stack done : List ScanLineEvent}
    {top : ScanLineEvent} {s2 : List ScanLineEvent}
    (h : StackInv del stack done)
    (htop : popDeleted del stack = top :: s2) :
    (done.filter fun e =>
        decide (0 ≤ e.id) && !(del.contains e.id)).getLast? = some top ∧
      del.contains top.id = false := by
  have htop2 : stack.dropWhile (fun e => del.contains e.id) = top :: s2 := htop
  have hnd : del.contains top.id = false :=
    @dropWhile_eq_cons_head _ (fun e => del.contains e.id) stack top s2 htop2
  have h2 := stackInv_pop h
  rw [htop] at h2
  unfold StackInv at h2
  refine ⟨?_, hnd⟩
  rw [← h2, List.reverse_cons, List.filter_append]
  have hnd2 : top.id ∉ del := by simpa using hnd
  have hone : List.filter (fun e => !(del.contains e.id)) [top] = [top] := by
    simp [hnd2]
  rw [hone, List.getLast?_concat]

theorem stackInv_push {del : List Int} {stack done : List ScanLineEvent}
    {e : ScanLineEvent} (h : StackInv del stack done) (hid : 0 ≤ e.id) :
    StackInv del (e :: popDeleted del stack) (done ++ [e]) := by
  have h2 := stackInv_pop h
  unfold StackInv at *
  rw [List.reverse_cons, List.filter_append, h2, List.filter_append]
  congr 1
  by_cases hd : e.id ∈ del
  · simp [hd]
  · simp [hd, hid]

theorem filter_not_contains_cons {n : Int} {del : List Int}
    (l : List ScanLineEvent) :
    l.filter (fun e => !((n :: del).contains e.id)) =
      (l.filter (fun e => !(del.contains e.id))).filter
        (fun e => !((n :: del).contains e.id)) := by
  rw [List.filter_filter]
  apply List.filter_congr
  intro x _
  by_cases h1 : x.id ∈ (n :: del)
  · simp [h1]
  · have h2 : x.id ∉ del := fun hm => h1 (List.mem_cons_of_mem _ hm)
    simp [h1, h2]

theorem stackInv_close {del : List Int} {stack done : List ScanLineEvent}
    {e : ScanLineEvent} (h : StackInv del stack done) (hid : e.id < 0) :
    StackInv ((-e.id - 1) :: del) (popDeleted del stack) (done ++ [e]) := by
  have h2 := stackInv_pop h
  unfold StackInv at *
  rw [List.filter_append]
  have hesing : List.filter
      (fun f => decide (0 ≤ f.id) && !(((-e.id - 1) :: del).contains f.id))
      [e] = [] := by
    have hne : ¬(0 ≤ e.id) := by omega
    simp [hne]
  rw [hesing, List.append_nil]
  rw [filter_not_contains_cons (popDeleted del stack).reverse, h2]
  rw [List.filter_filter]
  apply List.filter_congr
  intro x _
  by_cases h1 : x.id ∈ ((-e.id - 1) :: del)
  · simp [h1]
  · have h2x : x.id ∉ del := fun hm => h1 (List.mem_cons_of_mem _ hm)
    simp [h1, h2x]

/-- The heart of the sweep's LIFO correctness: at a point `x` lying
between the previous and the current event position, the open events of
the processed prefix that survive deletion are exactly the open events
whose range contains `x`. -/
theorem covers_filter_eq {ES done rest : List ScanLineEvent}
    {del : List Int} {x : Position}
    (hsplit : ES = done ++ rest)
    (hclose : ∀ o ∈ ES, 0 ≤ o.id →
      ∃ c ∈ ES, c.id < 0 ∧ -c.id - 1 = o.id ∧ c.pos = o.end_pos)
    (hlink : ∀ o ∈ ES, ∀ c ∈ ES, 0 ≤ o.id → c.id < 0 →
      -c.id - 1 = o.id → c.pos = o.end_pos)
    (hdel : ∀ n : Int, n ∈ del ↔ ∃ c ∈ done, c.id < 0 ∧ -c.id - 1 = n)
    (hdonele : ∀ d ∈ done, Position.le d.pos x)
    (hrestlt : ∀ r ∈ rest, Position.lt x r.pos) :
    ES.filter (fun o => decide (covers o x)) =
      done.filter (fun o => decide (0 ≤ o.id) && !(del.contains o.id)) := by
  subst hsplit
  rw [List.filter_append]
  have hrestnil : rest.filter (fun o => decide (covers o x)) = [] := by
    rw [List.filter_eq_nil_iff]
    intro r hr
    simp only [decide_eq_true_eq]
    intro hcov
    have hcov2 : 0 ≤ r.id ∧ Position.le r.pos x ∧
        Position.lt x r.end_pos := hcov
    exact Position.not_lt_of_le hcov2.2.1 (hrestlt r hr)
  rw [hrestnil, List.append_nil]
  apply List.filter_congr
  intro o ho
  have hoES : o ∈ done ++ rest := List.mem_append_left _ ho
  have hcont : del.contains o.id = decide (o.id ∈ del) := by simp
  rw [hcont, ← decide_not, ← Bool.decide_and, decide_eq_decide]
  unfold covers
  constructor
  · rintro ⟨hid, hle, hlt⟩
    refine ⟨hid, fun hm => ?_⟩
    rcases (hdel o.id).1 hm with ⟨c, hc, hcid, hclink⟩
    have hcpos : c.pos = o.end_pos :=
      hlink o hoES c (List.mem_append_left _ hc) hid hcid hclink
    have hcx : Position.le c.pos x := hdonele c hc
    rw [hcpos] at hcx
    exact Position.not_lt_of_le hcx hlt
  · rintro ⟨hid, hnm⟩
    refine ⟨hid, hdonele o ho, ?_⟩
    rcases hclose o hoES hid with ⟨c, hcES, hcid, hclink, hcpos⟩
    have hcnd : c ∉ done := fun hcd =>
      hnm ((hdel o.id).2 ⟨c, hcd, hcid, hclink⟩)
    have hcrest : c ∈ rest := by
      rcases List.mem_append.1 hcES with h | h
      · exact absurd h hcnd
      · exact h
    have hxc := hrestlt c hcrest
    rw [hcpos] at hxc
    exact hxc

theorem emitSpan_none (stack1 : List ScanLineEvent) (e : ScanLineEvent) :
    emitSpan none stack1 e = [] := rfl

theorem emitSpan_empty (pe e : ScanLineEvent) :
    emitSpan (some pe) [] e = [] := rfl

theorem emitSpan_top (pe : ScanLineEvent) (top : ScanLineEvent)
    (s2 : List ScanLineEvent) (e : ScanLineEvent) :
    emitSpan (some pe) (top :: s2) e =
      if pe.pos = e.pos then [] else [(top.symIdx, pe.pos, e.pos)] := rfl

theorem sweepGo_cons_eq (del : List Int) (stack : List ScanLineEvent)
    (prev : Option ScanLineEvent) (e : ScanLineEvent)
    (rest : List ScanLineEvent) :
    sweepGo del stack prev (e :: rest) =
      emitSpan prev (popDeleted del stack) e ++
        (if 0 ≤ e.id then sweepGo del (e :: popDeleted del stack) (some e) rest
         else sweepGo ((-e.id - 1) :: del) (popDeleted del stack) (some e)
           rest) := by
  by_cases h : 0 ≤ e.id
  · simp only [sweepGo, if_pos h]
  · simp only [sweepGo, if_neg h]

/-- Master induction over the sweep of lines 404-420: processing the
remaining events with a stack, deletion set and previous event
consistent with the processed prefix yields spans that are non-empty,
start no earlier than the previous position, chain left to right
without overlap, obey the last-opened-still-open ownership rule, and
jointly cover every still-coverable point at or after the previous
position. -/
theorem sweepGo_master (ES : List ScanLineEvent)
    (hsort : List.Pairwise (fun a b => Position.le a.pos b.pos) ES)
    (hclose : ∀ o ∈ ES, 0 ≤ o.id →
      ∃ c ∈ ES, c.id < 0 ∧ -c.id - 1 = o.id ∧ c.pos = o.end_pos)
    (hlink : ∀ o ∈ ES, ∀ c ∈ ES, 0 ≤ o.id → c.id < 0 →
      -c.id - 1 = o.id → c.pos = o.end_pos) :
    ∀ (rest done stack : List ScanLineEvent) (del : List Int)
      (prev : Option ScanLineEvent),
      ES = done ++ rest →
      StackInv del stack done →
      (∀ n : Int, n ∈ del ↔ ∃ c ∈ done, c.id < 0 ∧ -c.id - 1 = n) →
      (prev = none → done = []) →
      (∀ pe, prev = some pe → (∀ d ∈ done, Position.le d.pos pe.pos) ∧
        ∀ r ∈ rest, Position.le pe.pos r.pos) →
      (∀ a ∈ sweepGo del stack prev rest,
          Position.lt a.2.1 a.2.2 ∧
          (∀ pe, prev = some pe → Position.le pe.pos a.2.1) ∧
          (∀ x, Position.le a.2.1 x → Position.lt x a.2.2 →
            lifoOwner ES x = some a.1 ∧ ∃ o ∈ ES, covers o x)) ∧
        List.Pairwise (fun a b => Position.le a.2.2 b.2.1)
          (sweepGo del stack prev rest) ∧
        ∀ x, (∃ o ∈ ES, covers o x) →
          (∀ pe, prev = some pe → Position.le pe.pos x) →
          ∃ a ∈ sweepGo del stack prev rest,
            Position.le a.2.1 x ∧ Position.lt x a.2.2 := by
  intro rest
  induction rest with
  | nil =>
    intro done stack del prev hsplit hinv hdel hpnone hprev
    rw [List.append_nil] at hsplit
    refine ⟨?_, ?_, ?_⟩
    · intro a ha
      simp only [sweepGo] at ha
      exact absurd ha (List.not_mem_nil a)
    · simp only [sweepGo]
      exact List.Pairwise.nil
    · rintro x ⟨o, ho, hcov⟩ hge
      exfalso
      have hcov2 : 0 ≤ o.id ∧ Position.le o.pos x ∧
          Position.lt x o.end_pos := hcov
      cases prev with
      | none =>
        have hd0 : done = [] := hpnone rfl
        rw [hsplit, hd0] at ho
        exact absurd ho (List.not_mem_nil o)
      | some pe =>
        rcases hclose o ho hcov2.1 with ⟨c, hc, -, -, hcpos⟩
        rw [hsplit] at hc
        have h1 : Position.le c.pos pe.pos := (hprev pe rfl).1 c hc
        have h2 : Position.le pe.pos x := hge pe rfl
        have h3 : Position.le o.end_pos x := by
          rw [← hcpos]
          exact Position.le_trans h1 h2
        exact Position.not_lt_of_le h3 hcov2.2.2
  | cons e rest2 ih =>
    intro done stack del prev hsplit hinv hdel hpnone hprev
    have hsort2 := hsort
    rw [hsplit] at hsort2
    have hpa := List.pairwise_append.1 hsort2
    have herest : ∀ r ∈ rest2, Position.le e.pos r.pos :=
      (List.pairwise_cons.1 hpa.2.1).1
    have hdone_e : ∀ d ∈ done, Position.le d.pos e.pos := fun d hd =>
      hpa.2.2 d hd e (List.mem_cons_self e rest2)
    have hsplit2 : ES = (done ++ [e]) ++ rest2 := by
      rw [hsplit, List.append_assoc, List.singleton_append]
    have hprev2 : ∀ pe, (some e : Option ScanLineEvent) = some pe →
        (∀ d ∈ done ++ [e], Position.le d.pos pe.pos) ∧
          ∀ r ∈ rest2, Position.le pe.pos r.pos := by
      rintro pe hpe
      injection hpe with hpe
      subst hpe
      refine ⟨?_, herest⟩
      intro d hd
      rcases List.mem_append.1 hd with hd | hd
      · exact hdone_e d hd
      · rw [List.mem_singleton] at hd
        subst hd
        exact Or.inr rfl
    have hpnone2 : (some e : Option ScanLineEvent) = none →
        done ++ [e] = [] := fun h => Option.noConfusion h
    have IHall :
        (∀ a ∈ (if 0 ≤ e.id then
            sweepGo del (e :: popDeleted del stack) (some e) rest2
          else sweepGo ((-e.id - 1) :: del) (popDeleted del stack) (some e)
            rest2),
            Position.lt a.2.1 a.2.2 ∧ Position.le e.pos a.2.1 ∧
            ∀ x, Position.le a.2.1 x → Position.lt x a.2.2 →
              lifoOwner ES x = some a.1 ∧ ∃ o ∈ ES, covers o x) ∧
          List.Pairwise (fun a b => Position.le a.2.2 b.2.1)
            (if 0 ≤ e.id then
              sweepGo del (e :: popDeleted del stack) (some e) rest2
            else sweepGo ((-e.id - 1) :: del) (popDeleted del stack) (some e)
              rest2) ∧
          ∀ x, (∃ o ∈ ES, covers o x) → Position.le e.pos x →
            ∃ a ∈ (if 0 ≤ e.id then
                sweepGo del (e :: popDeleted del stack) (some e) rest2
              else sweepGo ((-e.id - 1) :: del) (popDeleted del stack)
                (some e) rest2),
              Position.le a.2.1 x ∧ Position.lt x a.2.2 := by
      by_cases hid : 0 ≤ e.id
      · rw [if_pos hid]
        have hdel2 : ∀ n : Int, n ∈ del ↔
            ∃ c ∈ done ++ [e], c.id < 0 ∧ -c.id - 1 = n := by
          intro n
          rw [hdel n]
          constructor
          · rintro ⟨c, hc, h1, h2⟩
            exact ⟨c, List.mem_append_left _ hc, h1, h2⟩
          · rintro ⟨c, hc, h1, h2⟩
            rcases List.mem_append.1 hc with hc | hc
            · exact ⟨c, hc, h1, h2⟩
            · rw [List.mem_singleton] at hc
              subst hc
              omega
        have IH := ih (done ++ [e]) (e :: popDeleted del stack) del (some e)
          hsplit2 (stackInv_push hinv hid) hdel2 hpnone2 hprev2
        exact ⟨fun a ha => ⟨(IH.1 a ha).1, (IH.1 a ha).2.1 e rfl,
          (IH.1 a ha).2.2⟩, IH.2.1,
          fun x hcx hex => IH.2.2 x hcx (fun pe hpe => by
            injection hpe with hpe
            subst hpe
            exact hex)⟩
      · rw [if_neg hid]
        have hid2 : e.id < 0 := by omega
        have hdel2 : ∀ n : Int, n ∈ ((-e.id - 1) :: del) ↔
            ∃ c ∈ done ++ [e], c.id < 0 ∧ -c.id - 1 = n := by
          intro n
          rw [List.mem_cons]
          constructor
          · rintro (rfl | hm)
            · exact ⟨e, List.mem_append_right _ (List.mem_singleton.2 rfl),
                hid2, rfl⟩
            · rcases (hdel n).1 hm with ⟨c, hc, h1, h2⟩
              exact ⟨c, List.mem_append_left _ hc, h1, h2⟩
          · rintro ⟨c, hc, h1, h2⟩
            rcases List.mem_append.1 hc with hc | hc
            · exact Or.inr ((hdel n).2 ⟨c, hc, h1, h2⟩)
            · rw [List.mem_singleton] at hc
              subst hc
              exact Or.inl h2.symm
        have IH := ih (done ++ [e]) (popDeleted del stack)
          ((-e.id - 1) :: del) (some e) hsplit2 (stackInv_close hinv hid2)
          hdel2 hpnone2 hprev2
        exact ⟨fun a ha => ⟨(IH.1 a ha).1, (IH.1 a ha).2.1 e rfl,
          (IH.1 a ha).2.2⟩, IH.2.1,
          fun x hcx hex => IH.2.2 x hcx (fun pe hpe => by
            injection hpe with hpe
            subst hpe
            exact hex)⟩
    obtain ⟨IHa, IHpw, IHcov⟩ := IHall
    obtain ⟨tail, hT⟩ : ∃ t, t = (if 0 ≤ e.id then
        sweepGo del (e :: popDeleted del stack) (some e) rest2
      else sweepGo ((-e.id - 1) :: del) (popDeleted del stack) (some e)
        rest2) := ⟨_, rfl⟩
    rw [← hT] at IHa IHpw IHcov
    rcases prev with _ | pe
    · have hrun : sweepGo del stack none (e :: rest2) = tail := by
        rw [sweepGo_cons_eq, ← hT, emitSpan_none, List.nil_append]
      rw [hrun]
      have hd0 : done = [] := hpnone rfl
      refine ⟨fun a ha => ⟨(IHa a ha).1,
        fun pe hpe => Option.noConfusion hpe, (IHa a ha).2.2⟩, IHpw, ?_⟩
      rintro x ⟨o, ho, hcov⟩ -
      have hcov2 : 0 ≤ o.id ∧ Position.le o.pos x ∧
          Position.lt x o.end_pos := hcov
      have hoe : Position.le e.pos o.pos := by
        rw [hsplit, hd0, List.nil_append] at ho
        rcases List.mem_cons.1 ho with h | h
        · rw [h]
          exact Or.inr rfl
        · exact herest o h
      exact IHcov x ⟨o, ho, hcov⟩ (Position.le_trans hoe hcov2.2.1)
    · have hpe_e : Position.le pe.pos e.pos :=
        (hprev pe rfl).2 e (List.mem_cons_self e rest2)
      have hd_pe : ∀ d ∈ done, Position.le d.pos pe.pos := (hprev pe rfl).1
      rcases hpop : popDeleted del stack with _ | ⟨top, s2⟩
      · have hrun : sweepGo del stack (some pe) (e :: rest2) = tail := by
          rw [sweepGo_cons_eq, ← hT, hpop, emitSpan_empty, List.nil_append]
        rw [hrun]
        refine ⟨?_, IHpw, ?_⟩
        · intro a ha
          refine ⟨(IHa a ha).1, ?_, (IHa a ha).2.2⟩
          rintro pe2 hpe2
          injection hpe2 with hpe2
          subst hpe2
          exact Position.le_trans hpe_e (IHa a ha).2.1
        · rintro x ⟨o, ho, hcov⟩ hgex
          have hgx : Position.le pe.pos x := hgex pe rfl
          by_cases hxe : Position.lt x e.pos
          · exfalso
            have hrl : ∀ r ∈ (e :: rest2), Position.lt x r.pos := by
              intro r hr
              rcases List.mem_cons.1 hr with h | h
              · rw [h]
                exact hxe
              · exact Position.lt_of_lt_of_le hxe (herest r h)
            have hfe := covers_filter_eq hsplit hclose hlink hdel
              (fun d hd => Position.le_trans (hd_pe d hd) hgx) hrl
            have hnil := stackInv_top_none hinv hpop
            rw [hnil] at hfe
            have hmem : o ∈ ES.filter (fun o => decide (covers o x)) :=
              List.mem_filter.2 ⟨ho, decide_eq_true hcov⟩
            rw [hfe] at hmem
            exact absurd hmem (List.not_mem_nil o)
          · exact IHcov x ⟨o, ho, hcov⟩ (Position.le_of_not_lt hxe)
      · by_cases heq : pe.pos = e.pos
        · have hrun : sweepGo del stack (some pe) (e :: rest2) = tail := by
            rw [sweepGo_cons_eq, ← hT, hpop, emitSpan_top, if_pos heq,
              List.nil_append]
          rw [hrun]
          refine ⟨?_, IHpw, ?_⟩
          · intro a ha
            refine ⟨(IHa a ha).1, ?_, (IHa a ha).2.2⟩
            rintro pe2 hpe2
            injection hpe2 with hpe2
            subst hpe2
            exact Position.le_trans hpe_e (IHa a ha).2.1
          · rintro x ⟨o, ho, hcov⟩ hgex
            have hgx : Position.le e.pos x := by
              rw [← heq]
              exact hgex pe rfl
            exact IHcov x ⟨o, ho, hcov⟩ hgx
        · have hrun : sweepGo del stack (some pe) (e :: rest2) =
              (top.symIdx, pe.pos, e.pos) :: tail := by
            rw [sweepGo_cons_eq, ← hT, hpop, emitSpan_top, if_neg heq,
              List.singleton_append]
          rw [hrun]
          have hlt : Position.lt pe.pos e.pos := by
            rcases hpe_e with h | h
            · exact h
            · exact absurd h heq
          have hspan : ∀ x, Position.le pe.pos x → Position.lt x e.pos →
              lifoOwner ES x = some top.symIdx ∧ ∃ o ∈ ES, covers o x := by
            intro x hx1 hx2
            have hrl : ∀ r ∈ (e :: rest2), Position.lt x r.pos := by
              intro r hr
              rcases List.mem_cons.1 hr with h | h
              · rw [h]
                exact hx2
              · exact Position.lt_of_lt_of_le hx2 (herest r h)
            have hfe := covers_filter_eq hsplit hclose hlink hdel
              (fun d hd => Position.le_trans (hd_pe d hd) hx1) hrl
            rcases stackInv_top_some hinv hpop with ⟨hlast, -⟩
            constructor
            · unfold lifoOwner
              rw [hfe, hlast]
              rfl
            · have htm : top ∈ ES.filter (fun o => decide (covers o x)) := by
                rw [hfe]
                exact List.mem_of_mem_getLast? hlast
              rcases List.mem_filter.1 htm with ⟨h1, h2⟩
              exact ⟨top, h1, of_decide_eq_true h2⟩
          refine ⟨?_, ?_, ?_⟩
          · intro a ha
            rcases List.mem_cons.1 ha with h | h
            · subst h
              refine ⟨hlt, ?_, ?_⟩
              · rintro pe2 hpe2
                injection hpe2 with hpe2
                subst hpe2
                exact Or.inr rfl
              · intro x hx1 hx2
                exact hspan x hx1 hx2
            · refine ⟨(IHa a h).1, ?_, (IHa a h).2.2⟩
              rintro pe2 hpe2
              injection hpe2 with hpe2
              subst hpe2
              exact Position.le_trans hpe_e (IHa a h).2.1
          · refine List.pairwise_cons.2 ⟨?_, IHpw⟩
            intro b hb
            exact (IHa b hb).2.1
          · rintro x ⟨o, ho, hcov⟩ hgex
            have hgx : Position.le pe.pos x := hgex pe rfl
            by_cases hxe : Position.lt x e.pos
            · exact ⟨(top.symIdx, pe.pos, e.pos),
                List.mem_cons_self _ _, hgx, hxe⟩
            · rcases IHcov x ⟨o, ho, hcov⟩ (Position.le_of_not_lt hxe)
                with ⟨a, ha, h1, h2⟩
              exact ⟨a, List.mem_cons_of_mem _ ha, h1, h2⟩

/-! Transfer of the structural event facts to the sorted event list. -/

theorem sortEvents_mem {syms : List CclsSemanticHighlightSymbol}
    {a : ScanLineEvent} :
    a ∈ sortEvents syms ↔ a ∈ buildEvents syms :=
  (List.perm_insertionSort eventLe (buildEvents syms)).mem_iff

theorem sortEvents_pos_pairwise (syms : List CclsSemanticHighlightSymbol) :
    List.Pairwise (fun a b => Position.le a.pos b.pos) (sortEvents syms) :=
  List.Pairwise.imp (fun h2 => eventLe_pos_le h2)
    (List.sorted_insertionSort eventLe (buildEvents syms))

theorem sortEvents_close (syms : List CclsSemanticHighlightSymbol) :
    ∀ o ∈ sortEvents syms, 0 ≤ o.id →
      ∃ c ∈ sortEvents syms, c.id < 0 ∧ -c.id - 1 = o.id ∧
        c.pos = o.end_pos := by
  intro o ho hid
  rcases close_exists (sortEvents_mem.1 ho) hid with ⟨c, hc, h1, h2, h3⟩
  exact ⟨c, sortEvents_mem.2 hc, h1, h2, h3⟩

theorem sortEvents_link (syms : List CclsSemanticHighlightSymbol) :
    ∀ o ∈ sortEvents syms, ∀ c ∈ sortEvents syms, 0 ≤ o.id → c.id < 0 →
      -c.id - 1 = o.id → c.pos = o.end_pos :=
  fun o ho c hc h1 h2 h3 =>
    close_pos_of_open (sortEvents_mem.1 ho) (sortEvents_mem.1 hc) h1 h2 h3

/-- The master induction instantiated at the whole sweep. -/
theorem sweepAttrs_spec (syms : List CclsSemanticHighlightSymbol) :
    (∀ a ∈ sweepAttrs syms,
        Position.lt a.2.1 a.2.2 ∧
        ∀ x, Position.le a.2.1 x → Position.lt x a.2.2 →
          lifoOwner (sortEvents syms) x = some a.1 ∧ inputCovered syms x) ∧
      List.Pairwise (fun a b => Position.le a.2.2 b.2.1) (sweepAttrs syms) ∧
      ∀ x, inputCovered syms x →
        ∃ a ∈ sweepAttrs syms, Position.le a.2.1 x ∧ Position.lt x a.2.2 := by
  obtain ⟨h1, h2, h3⟩ := sweepGo_master (sortEvents syms)
    (sortEvents_pos_pairwise syms) (sortEvents_close syms)
    (sortEvents_link syms) (sortEvents syms) [] [] [] none rfl rfl
    (by simp) (fun _ => rfl) (fun pe h => Option.noConfusion h)
  refine ⟨?_, h2, ?_⟩
  · intro a ha
    refine ⟨(h1 a ha).1, ?_⟩
    intro x hx1 hx2
    rcases (h1 a ha).2.2 x hx1 hx2 with ⟨howner, o, ho, hcov⟩
    exact ⟨howner, (covered_iff_open syms x).2 ⟨o, sortEvents_mem.1 ho, hcov⟩⟩
  · intro x hx
    rcases (covered_iff_open syms x).1 hx with ⟨o, ho, hcov⟩
    exact h3 x ⟨o, sortEvents_mem.2 ho, hcov⟩ (fun pe h => Option.noConfusion h)

/-- Spans attributed to one symbol never overlap: the per-symbol range
lists produced by the overlap resolution chain left to right. -/
theorem resolveRanges_pairwise (syms : List CclsSemanticHighlightSymbol) :
    ∀ s ∈ resolveRanges syms,
      List.Pairwise (fun r1 r2 => Position.le r1.endp r2.start)
        s.lsRanges := by
  intro s hs
  unfold resolveRanges at hs
  rcases List.mem_map.1 hs with ⟨p, hp, hps⟩
  subst hps
  show List.Pairwise _ (List.filterMap _ (sweepAttrs syms))
  refine pairwise_filterMap_of _ ?_ (sweepAttrs_spec syms).2.1
  intro a b hab c hc d hd
  by_cases ha1 : a.1 = p.1
  · rw [if_pos ha1] at hc
    by_cases hb1 : b.1 = p.1
    · rw [if_pos hb1] at hd
      injection hc with hc
      injection hd with hd
      subst hc
      subst hd
      exact hab
    · rw [if_neg hb1] at hd
      exact Option.noConfusion hd
  · rw [if_neg ha1] at hc
    exact Option.noConfusion hc

/-- The concrete scenario of the claim: symbol A of the type kind
spanning columns [0,10), symbol B of the variable kind spanning [0,4),
symbol C of the function kind spanning [6,8), all on line 0. -/
def demoA : CclsSemanticHighlightSymbol :=
  { id := 1, parentKind := 0, kind := 5, storage := 0, ranges := [],
    lsRanges := [⟨⟨0, 0⟩, ⟨0, 10⟩⟩] }

def demoB : CclsSemanticHighlightSymbol :=
  { id := 2, parentKind := 0, kind := 13, storage := 0, ranges := [],
    lsRanges := [⟨⟨0, 0⟩, ⟨0, 4⟩⟩] }

def demoC : CclsSemanticHighlightSymbol :=
  { id := 3, parentKind := 0, kind := 12, storage := 0, ranges := [],
    lsRanges := [⟨⟨0, 6⟩, ⟨0, 8⟩⟩] }

/-- C1: the scan-line resolution of emitSemanticHighlight (lines
383-420) partitions the collected ranges: every attributed span is
non-empty and lies within the union of the input ranges, each point of
a span is owned by the symbol selected by the
last-opened-and-still-open (LIFO) rule, the spans jointly cover exactly
the union of the input ranges, all spans chain left to right without
overlap (so in particular the spans of any single symbol are mutually
disjoint), and the concrete scenario with symbol A (Type) on [0,10),
B (Var) on [0,4) and C (Func) on [6,8) resolves to A→[4,6) and [8,10),
B→[0,4), C→[6,8). -/
theorem scanline_partition_spec :
    (∀ syms : List CclsSemanticHighlightSymbol,
      (∀ a ∈ sweepAttrs syms, Position.lt a.2.1 a.2.2) ∧
      (∀ a ∈ sweepAttrs syms, ∀ x, Position.le a.2.1 x →
        Position.lt x a.2.2 → inputCovered syms x ∧
          lifoOwner (sortEvents syms) x = some a.1) ∧
      (∀ x, inputCovered syms x ↔
        ∃ a ∈ sweepAttrs syms, Position.le a.2.1 x ∧ Position.lt x a.2.2) ∧
      List.Pairwise (fun a b => Position.le a.2.2 b.2.1) (sweepAttrs syms) ∧
      ∀ s ∈ resolveRanges syms,
        List.Pairwise (fun r1 r2 => Position.le r1.endp r2.start)
          s.lsRanges) ∧
    resolveRanges [demoA, demoB, demoC] =
      [{ demoA with lsRanges := [⟨⟨0, 4⟩, ⟨0, 6⟩⟩, ⟨⟨0, 8⟩, ⟨0, 10⟩⟩] },
       { demoB with lsRanges := [⟨⟨0, 0⟩, ⟨0, 4⟩⟩] },
       { demoC with lsRanges := [⟨⟨0, 6⟩, ⟨0, 8⟩⟩] }] := by
  constructor
  · intro syms
    obtain ⟨h1, h2, h3⟩ := sweepAttrs_spec syms
    refine ⟨fun a ha => (h1 a ha).1, ?_, ?_, h2, resolveRanges_pairwise syms⟩
    · intro a ha x hx1 hx2
      rcases (h1 a ha).2 x hx1 hx2 with ⟨ho, hc⟩
      exact ⟨hc, ho⟩
    · intro x
      constructor
      · exact h3 x
      · rintro ⟨a, ha, hx1, hx2⟩
        exact ((h1 a ha).2 x hx1 hx2).2
  · decide

/-- Witness for C1: in the A/B/C scenario the point at column 5 is
covered by the inputs and owned by symbol A (arena index 0), as the
emitted span [4,6) attributes it. -/
theorem scanline_partition_witness :
    inputCovered [demoA, demoB, demoC] ⟨0, 5⟩ ∧
      lifoOwner (sortEvents [demoA, demoB, demoC]) ⟨0, 5⟩ = some 0 := by
  have h := scanline_partition_spec
  have h2 := (h.1 [demoA, demoB, demoC]).2.1 (0, ⟨0, 4⟩, ⟨0, 6⟩)
    (by decide) ⟨0, 5⟩ (by decide) (by decide)
  exact h2

end Ccls
